import Mathlib

/-!
Shallow embedding of the CustomTable grid engine (src/lib/custom-table.js,
second class definition in the file, the one with spreadsheet-JSON support)
and proofs about its specified behaviour.

Conventions of the embedding:
* JavaScript objects used as style maps are insertion-ordered association
  lists with unique keys; property writes are modelled by jsSet (replace in
  place or append), property reads by jsGet, delete by jsDelete.
* Numbers that the source manipulates as array indices or pixel counts are
  modelled as Int (they may be negative, e.g. a parsed row index of an A1
  address "A0"); fractional values do not arise on the code paths covered
  by the claims, so numeric values are integral throughout.
* Strings that the engine parses character by character (A1 addresses,
  column labels) are modelled as List Char; style keys and values stay
  String.
* DOM rendering (the render method called at the end of every mutator) has
  no effect on the model state and is omitted.
-/

set_option maxHeartbeats 1600000
set_option maxRecDepth 16000

namespace CustomTable

/-- Style map as stored by the engine: a JavaScript object whose values have
all been passed through String(...), modelled as an insertion-ordered
association list. -/
abbrev Style := List (String × String)

/-- Raw style object as received from a caller before sanitization: a value
is either null/undefined (none) or an arbitrary value modelled by its
String(...) image (some). -/
abbrev RawStyle := List (String × Option String)

/-- JavaScript object property write obj[k] = v: overwrite in place when the
key is present, otherwise append (JS insertion-order semantics). -/
def jsSet {κ α : Type} [DecidableEq κ] (m : List (κ × α)) (k : κ) (v : α) :
    List (κ × α) :=
  match m with
  | [] => [(k, v)]
  | (k1, v1) :: rest => if k1 = k then (k, v) :: rest else (k1, v1) :: jsSet rest k v

/-- JavaScript object property read obj[k]; none when the key is absent. -/
def jsGet {κ α : Type} [DecidableEq κ] (m : List (κ × α)) (k : κ) : Option α :=
  match m with
  | [] => none
  | (k1, v1) :: rest => if k1 = k then some v1 else jsGet rest k

/-- JavaScript delete obj[k]. -/
def jsDelete {κ α : Type} [DecidableEq κ] (m : List (κ × α)) (k : κ) :
    List (κ × α) :=
  m.filter (fun kv => kv.1 ≠ k)

/-- Whitespace recognised by String.prototype.trim on the inputs the engine
produces (space, tab, newline, carriage return, vertical tab, form feed). -/
def isJsSpace (ch : Char) : Bool :=
  ch.toNat = 32 || ch.toNat = 9 || ch.toNat = 10 || ch.toNat = 13 ||
    ch.toNat = 11 || ch.toNat = 12

/-- String.prototype.trim on a character list: drop whitespace at both ends. -/
def jsTrim (cs : List Char) : List Char :=
  ((cs.dropWhile isJsSpace).reverse.dropWhile isJsSpace).reverse

/-- String.prototype.trim for style keys. -/
def trimStr (s : String) : String := String.mk (jsTrim s.data)

/-- Loop body of the private sanitizeStyle helper: iterate the entries of the
raw object, break once count exceeds 200, skip null values and keys that trim
to the empty string, stringify values and store them under the trimmed key. -/
def sanitizeLoop : RawStyle → Style → Nat → Style
  | [], out, _ => out
  | (k, v) :: rest, out, count =>
    if 200 < count then out
    else
      match v with
      | none => sanitizeLoop rest out count
      | some w =>
        let key := trimStr k
        if key = "" then sanitizeLoop rest out count
        else sanitizeLoop rest (jsSet out key w) (count + 1)

/-- The private sanitizeStyle helper: null (or non-object, which the
embedding does not represent) yields null, otherwise the sanitized entries;
an empty result is returned as null. -/
def sanitizeStyle (style : Option RawStyle) : Option Style :=
  match style with
  | none => none
  | some entries =>
    let out := sanitizeLoop entries [] 0
    if out = [] then none else some out

/-- View a stored style as a raw style (every value non-null), for the
call sites that re-sanitize an object built from stored styles. -/
def toRaw (s : Style) : RawStyle := s.map (fun kv => (kv.1, some kv.2))

/-- Merged-cell range as stored in model.mergedCells: the source stores
corner objects start and end, each with fields r and c; they are flattened
here to sr/sc (start) and er/ec (end corner; end is reserved in Lean).
Coordinates are the clamped, ordered values that sanitizeMerges produces,
hence naturals. -/
structure MergeRange where
  sr : Nat
  sc : Nat
  er : Nat
  ec : Nat
deriving DecidableEq, Repr

/-- The grid model owned by the engine. cellStyles is keyed by the
(row, col) pair encoded by the source as the string "C{c+1}R{r+1}"; every
key the engine ever stores is produced by its cellKey helper, which is
injective, so the embedding uses the structured pair directly (the spec
itself notes the string key is equivalent to a structured key). -/
structure Model where
  rows : Int
  cols : Int
  data : List (List String)
  columnStyles : List (Option Style)
  rowStyles : List (Option Style)
  cellStyles : List ((Nat × Nat) × Style)
  mergedCells : List MergeRange
deriving DecidableEq, Repr

/-- Length coercion applied by Array.from to a length property: negative
lengths clamp to zero (JS ToLength). -/
def toLength (n : Int) : Nat := n.toNat

/-- Number of row iterations performed by loops bounded by model.rows:
for (let r = 0; r < rows; r++) runs max(0, rows) times. -/
def rowsNat (m : Model) : Nat := m.rows.toNat

/-- Number of column iterations performed by loops bounded by model.cols. -/
def colsNat (m : Model) : Nat := m.cols.toNat

/-- The private createEmptyModel helper. Note that rows and cols are stored
exactly as given (no validation), while the data arrays are built with
Array.from, whose length coercion clamps negative counts to zero. -/
def createEmptyModel (rows cols : Int) : Model :=
  { rows := rows
    cols := cols
    data := List.replicate (toLength rows) (List.replicate (toLength cols) "")
    columnStyles := List.replicate (toLength cols) none
    rowStyles := List.replicate (toLength rows) none
    cellStyles := []
    mergedCells := [] }

/-- Model construction performed by the CustomTable constructor:
options.rows ?? 2 and options.cols ?? 2 (nullish coalescing: only a missing
or null option falls back to 2), then createEmptyModel. The container
argument and DOM setup are outside the model. -/
def constructorModel (rows cols : Option Int) : Model :=
  createEmptyModel (rows.getD 2) (cols.getD 2)

/-- addRow: push one row of cols empty strings onto data and increment
rows. The source touches neither rowStyles nor cellStyles nor mergedCells
here. -/
def addRow (m : Model) : Model :=
  { m with
    data := m.data ++ [List.replicate (colsNat m) ""]
    rows := m.rows + 1 }

/-- addColumn: push an empty string onto each of the first rows data rows,
increment cols, and push a null entry onto columnStyles. -/
def addColumn (m : Model) : Model :=
  { m with
    data := m.data.mapIdx (fun r row => if r < rowsNat m then row ++ [""] else row)
    cols := m.cols + 1
    columnStyles := m.columnStyles ++ [none] }

/-- The private reindexCellStylesAfterRemoveRow helper: entries parse back
to (r, c); entries at the removed row are dropped, rows above it shift down
by one. The source rebuilds a fresh object by successive writes; since the
engine only ever stores keys produced by its injective cellKey helper, the
keys are pairwise distinct and sequential insertion coincides with this
direct recursion. -/
def reindexCellStylesAfterRemoveRow :
    List ((Nat × Nat) × Style) → Nat → List ((Nat × Nat) × Style)
  | [], _ => []
  | ((r, c), v) :: rest, removedRow =>
    if r = removedRow then reindexCellStylesAfterRemoveRow rest removedRow
    else ((if removedRow < r then r - 1 else r, c), v) ::
      reindexCellStylesAfterRemoveRow rest removedRow

/-- The private reindexCellStylesAfterRemoveCol helper, symmetric over the
column component. -/
def reindexCellStylesAfterRemoveCol :
    List ((Nat × Nat) × Style) → Nat → List ((Nat × Nat) × Style)
  | [], _ => []
  | ((r, c), v) :: rest, removedCol =>
    if c = removedCol then reindexCellStylesAfterRemoveCol rest removedCol
    else ((r, if removedCol < c then c - 1 else c), v) ::
      reindexCellStylesAfterRemoveCol rest removedCol

/-- The private reindexMergesAfterRemoveRow helper: a range whose row span
contains the removed row is dropped whole; otherwise both row components
shift down by one when the removed row lies above the range. The final
start-before-end guard of the source is kept. -/
def reindexMergesAfterRemoveRow : List MergeRange → Nat → List MergeRange
  | [], _ => []
  | m :: rest, removedRow =>
    if m.sr ≤ removedRow ∧ removedRow ≤ m.er then
      reindexMergesAfterRemoveRow rest removedRow
    else
      let nm := if removedRow < m.sr then
          { sr := m.sr - 1, sc := m.sc, er := m.er - 1, ec := m.ec }
        else m
      if nm.sr ≤ nm.er then nm :: reindexMergesAfterRemoveRow rest removedRow
      else reindexMergesAfterRemoveRow rest removedRow

/-- The private reindexMergesAfterRemoveCol helper, symmetric over columns. -/
def reindexMergesAfterRemoveCol : List MergeRange → Nat → List MergeRange
  | [], _ => []
  | m :: rest, removedCol =>
    if m.sc ≤ removedCol ∧ removedCol ≤ m.ec then
      reindexMergesAfterRemoveCol rest removedCol
    else
      let nm := if removedCol < m.sc then
          { sr := m.sr, sc := m.sc - 1, er := m.er, ec := m.ec - 1 }
        else m
      if nm.sc ≤ nm.ec then nm :: reindexMergesAfterRemoveCol rest removedCol
      else reindexMergesAfterRemoveCol rest removedCol

/-- removeRow: no-op when rows is at most 1 or the index is out of range
(indices are naturals here, so the negative-index guard of the source is
vacuous); otherwise splice the row out of data and rowStyles, decrement
rows, and reindex cellStyles and mergedCells. -/
def removeRow (m : Model) (index : Nat) : Model :=
  if m.rows ≤ 1 then m
  else if m.rows ≤ (index : Int) then m
  else
    { m with
      data := m.data.eraseIdx index
      rows := m.rows - 1
      rowStyles := m.rowStyles.eraseIdx index
      cellStyles := reindexCellStylesAfterRemoveRow m.cellStyles index
      mergedCells := reindexMergesAfterRemoveRow m.mergedCells index }

/-- removeColumn, symmetric to removeRow over columns. -/
def removeColumn (m : Model) (index : Nat) : Model :=
  if m.cols ≤ 1 then m
  else if m.cols ≤ (index : Int) then m
  else
    { m with
      data := m.data.mapIdx
        (fun r row => if r < rowsNat m then row.eraseIdx index else row)
      cols := m.cols - 1
      columnStyles := m.columnStyles.eraseIdx index
      cellStyles := reindexCellStylesAfterRemoveCol m.cellStyles index
      mergedCells := reindexMergesAfterRemoveCol m.mergedCells index }

/-- setCellStyle: bounds-checked; sanitize, then store under the cell key,
or delete the key when sanitization yields null. -/
def setCellStyle (m : Model) (r c : Nat) (styleObj : Option RawStyle) : Model :=
  if m.rows ≤ (r : Int) then m
  else if m.cols ≤ (c : Int) then m
  else
    match sanitizeStyle styleObj with
    | some s => { m with cellStyles := jsSet m.cellStyles (r, c) s }
    | none => { m with cellStyles := jsDelete m.cellStyles (r, c) }

/-- getCellStyle: bounds-checked read of the per-cell style override. -/
def getCellStyle (m : Model) (r c : Nat) : Option Style :=
  if m.rows ≤ (r : Int) then none
  else if m.cols ≤ (c : Int) then none
  else jsGet m.cellStyles (r, c)

/-- JavaScript array element write arr[index] = v: extend with holes (read
back as null) when the index is beyond the current length. -/
def jsArraySet (l : List (Option Style)) (index : Nat) (v : Option Style) :
    List (Option Style) :=
  if index < l.length then l.set index v
  else l ++ List.replicate (index - l.length) none ++ [v]

/-- setRowStyle: bounds-checked; sanitize and store at rowStyles[index].
The source writes only this one slot; in particular it does not touch
cellStyles. -/
def setRowStyle (m : Model) (index : Nat) (styleObj : Option RawStyle) : Model :=
  if m.rows ≤ (index : Int) then m
  else { m with rowStyles := jsArraySet m.rowStyles index (sanitizeStyle styleObj) }

/-- getRowStyle: bounds-checked read; a missing entry reads as null. -/
def getRowStyle (m : Model) (index : Nat) : Option Style :=
  if m.rows ≤ (index : Int) then none
  else (m.rowStyles.getD index none)

/-- setColumnStyle: bounds-checked; sanitize and store at
columnStyles[index]. -/
def setColumnStyle (m : Model) (index : Nat) (styleObj : Option RawStyle) : Model :=
  if m.cols ≤ (index : Int) then m
  else { m with columnStyles := jsArraySet m.columnStyles index (sanitizeStyle styleObj) }

/-- getColumnStyle: bounds-checked read; a missing entry reads as null. -/
def getColumnStyle (m : Model) (index : Nat) : Option Style :=
  if m.cols ≤ (index : Int) then none
  else (m.columnStyles.getD index none)

/-- Read model.data[r][c] ?? two missing levels read as empty (the data
matrix of a well-formed model is dense, so the defaults never fire there). -/
def getData (m : Model) (r c : Nat) : String :=
  (m.data.getD r []).getD c ""

/-! ### A1 address codec -/

/-- ASCII letter class of the A1 regex character class [A-Za-z]. -/
def isAsciiLetter (ch : Char) : Bool :=
  (65 ≤ ch.toNat && ch.toNat ≤ 90) || (97 ≤ ch.toNat && ch.toNat ≤ 122)

/-- ASCII digit class of the A1 regex. -/
def isAsciiDigit (ch : Char) : Bool :=
  48 ≤ ch.toNat && ch.toNat ≤ 57

/-- Decimal digit loop with explicit fuel (the argument strictly decreases,
so n + 1 iterations always suffice and the fuel-0 case is never reached). -/
def natToCharsGo (fuel n : Nat) : List Char :=
  match fuel with
  | 0 => []
  | fuel + 1 =>
    if n < 10 then [Char.ofNat (48 + n)]
    else natToCharsGo fuel (n / 10) ++ [Char.ofNat (48 + n % 10)]

/-- Decimal digit characters of a natural number, as produced by JS template
interpolation of a nonnegative integer. -/
def natToChars (n : Nat) : List Char := natToCharsGo (n + 1) n

/-- Value of a digit string, as computed by Number(...) on a plain digit
sequence. -/
def digitsToNat (cs : List Char) : Nat :=
  cs.foldl (fun a ch => a * 10 + (ch.toNat - 48)) 0

/-- Column-label loop with explicit fuel (the argument strictly decreases,
so index + 1 iterations always suffice and the fuel-0 case is never
reached). -/
def colIndexToLabelGo (fuel index : Nat) : List Char :=
  match fuel with
  | 0 => []
  | fuel + 1 =>
    let rem := index % 26
    if index / 26 = 0 then [Char.ofNat (65 + rem)]
    else colIndexToLabelGo fuel (index / 26 - 1) ++ [Char.ofNat (65 + rem)]

/-- The private colIndexToLabel helper: bijective base-26 column letters via
a do-while loop; the recursion builds the same string front to back. -/
def colIndexToLabel (index : Nat) : List Char := colIndexToLabelGo (index + 1) index

/-- ASCII uppercasing done by String.prototype.toUpperCase on the label
alphabet. -/
def upcaseChar (ch : Char) : Char :=
  if 97 ≤ ch.toNat ∧ ch.toNat ≤ 122 then Char.ofNat (ch.toNat - 32) else ch

/-- The private colLabelToIndex helper: trim, uppercase, then fold each
letter as a bijective base-26 digit (code - 64); empty input yields 0, and
the result is the accumulated value minus one. -/
def colLabelToIndex (label : List Char) : Int :=
  let s := (jsTrim label).map upcaseChar
  if s = [] then 0
  else (s.foldl (fun n ch => n * 26 + ((ch.toNat : Int) - 64)) 0) - 1

/-- The private parseA1 helper: trim, then match letters followed by digits
(the whole string); yields zero-based (row, col), where the row may be -1
for a label such as A0. -/
def parseA1 (a1 : List Char) : Option (Int × Int) :=
  let s := jsTrim a1
  let letters := s.takeWhile isAsciiLetter
  let rest := s.dropWhile isAsciiLetter
  let digits := rest.takeWhile isAsciiDigit
  let tail := rest.dropWhile isAsciiDigit
  if letters = [] ∨ digits = [] ∨ tail ≠ [] then none
  else some (((digitsToNat digits : Int)) - 1, colLabelToIndex letters)

/-- String.prototype.split(":") on a character list. -/
def splitOnColon : List Char → List (List Char)
  | [] => [[]]
  | ch :: rest =>
    if ch = ':' then [] :: splitOnColon rest
    else
      match splitOnColon rest with
      | [] => [[ch]]
      | g :: gs => (ch :: g) :: gs

/-- Parsed A1 range with the zero-based corners of the source objects
start: r, c and end: r, c (the end corner is er/ec here). -/
structure RawA1Range where
  sr : Int
  sc : Int
  er : Int
  ec : Int
deriving DecidableEq, Repr

/-- The private parseA1Range helper: a single address is a degenerate range;
otherwise the first two colon-separated parts must both parse. -/
def parseA1Range (rng : List Char) : Option RawA1Range :=
  match splitOnColon rng with
  | [] => none
  | [one] => (parseA1 one).map (fun p => ⟨p.1, p.2, p.1, p.2⟩)
  | p1 :: p2 :: _ =>
    match parseA1 p1, parseA1 p2 with
    | some a, some b => some ⟨a.1, a.2, b.1, b.2⟩
    | _, _ => none

/-- The private rangeToA1 helper on present corners (the source returns
A1:A1 when a corner is missing, which cannot happen for stored merges):
normalize the corner order, then label both corners and join with a colon. -/
def rangeToA1 (start stop : Nat × Nat) : List Char :=
  let sr := min start.1 stop.1
  let er := max start.1 stop.1
  let sc := min start.2 stop.2
  let ec := max start.2 stop.2
  colIndexToLabel sc ++ natToChars (sr + 1) ++
    ':' :: (colIndexToLabel ec ++ natToChars (er + 1))

/-! ### Merge sanitization -/

/-- Raw entry of a mergedCells array handed to sanitizeMerges: an A1 range
string, an object with finite numeric corners, or anything else (malformed
or non-finite), which is skipped. -/
inductive RawMerge where
  | str (s : List Char)
  | rng (r1 c1 r2 c2 : Int)
  | invalid
deriving DecidableEq, Repr

/-- The private sanitizeMerges helper: parse each entry, normalize corner
order, clamp into the grid, and drop inverted or 1x1 ranges. The stored
coordinates are the clamped integers; for maxRows, maxCols at least 1 (true
at every call site) they are nonnegative, so the toNat conversion into the
Nat-valued MergeRange is exact. -/
def sanitizeMerges (merges : List RawMerge) (maxRows maxCols : Nat) :
    List MergeRange :=
  match merges with
  | [] => []
  | m :: rest =>
    let tail := sanitizeMerges rest maxRows maxCols
    let rngOpt : Option RawA1Range :=
      match m with
      | .str s => parseA1Range s
      | .rng r1 c1 r2 c2 => some ⟨r1, c1, r2, c2⟩
      | .invalid => none
    match rngOpt with
    | none => tail
    | some rng =>
      let sr0 : Int := max 0 (min rng.sr rng.er)
      let er0 : Int := max 0 (max rng.sr rng.er)
      let sc0 : Int := max 0 (min rng.sc rng.ec)
      let ec0 : Int := max 0 (max rng.sc rng.ec)
      let sr1 := min sr0 ((maxRows : Int) - 1)
      let er1 := min er0 ((maxRows : Int) - 1)
      let sc1 := min sc0 ((maxCols : Int) - 1)
      let ec1 := min ec0 ((maxCols : Int) - 1)
      if er1 < sr1 ∨ ec1 < sc1 then tail
      else if sr1 = er1 ∧ sc1 = ec1 then tail
      else ⟨sr1.toNat, sc1.toNat, er1.toNat, ec1.toNat⟩ :: tail

/-! ### Numbers and pixel values -/

/-- JavaScript value that can sit in an interchange field: a finite number
(integral on every path the claims cover) or a string. -/
inductive JsVal where
  | num (n : Int)
  | str (s : String)
deriving DecidableEq, Repr

/-- String(...) image of a JsVal. -/
def intToStr (i : Int) : String :=
  if i < 0 then String.mk ('-' :: natToChars (-i).toNat) else String.mk (natToChars i.toNat)

/-- String(...) image of a JsVal. -/
def jsValToStr : JsVal → String
  | .num n => intToStr n
  | .str s => s

/-- Math.round of the decimal value sign(neg) * (ip + 0.frac): round half
toward positive infinity. -/
def roundMag (ip : Nat) (frac : List Char) (neg : Bool) : Int :=
  let d0 := ((frac.head?.map (fun ch => ch.toNat - 48)).getD 0)
  if neg then
    if 5 < d0 ∨ (d0 = 5 ∧ (frac.drop 1).any (fun ch => ch.toNat ≠ 48)) then
      -(ip : Int) - 1
    else -(ip : Int)
  else
    if 5 ≤ d0 then (ip : Int) + 1 else (ip : Int)

/-- Decimal shape accepted by Number(...) on the strings the engine meets:
optional sign, then digits, digits.digits, digits., or .digits (whitespace
already trimmed; empty input is 0; exponent and hex forms, which never occur
here, are not represented and would be NaN). Yields (negative, integer part,
fraction digits); none is NaN. -/
def jsNumParts (s : String) : Option (Bool × Nat × List Char) :=
  let t := jsTrim s.data
  if t = [] then some (false, 0, [])
  else
    let signed : Bool × List Char :=
      match t with
      | '-' :: rest => (true, rest)
      | '+' :: rest => (false, rest)
      | _ => (false, t)
    let neg := signed.1
    let cs1 := signed.2
    let ip := cs1.takeWhile isAsciiDigit
    let rest1 := cs1.dropWhile isAsciiDigit
    match rest1 with
    | [] => if ip = [] then none else some (neg, digitsToNat ip, [])
    | '.' :: r =>
      let f := r.takeWhile isAsciiDigit
      if r.dropWhile isAsciiDigit ≠ [] then none
      else if ip = [] ∧ f = [] then none
      else some (neg, digitsToNat ip, f)
    | _ => none

/-- Math.round(Number(v)) with none for NaN, as used by the import style
mapper on fontSize. -/
def jsNumberRound (v : JsVal) : Option Int :=
  match v with
  | .num n => some n
  | .str s => (jsNumParts s).map (fun p => roundMag p.2.1 p.2.2 p.1)

/-- The test !isNaN(Number(fw)) and Number(fw) at least 600, used for
numeric fontWeight values. -/
def jsNumGe600 (s : String) : Bool :=
  match jsNumParts s with
  | some (neg, ip, _) => !neg && 600 ≤ ip
  | none => false

/-- Body of the px regex of pxToNumber on a trimmed character list:
an optional minus, digits, an optional fraction, then either nothing or
optional spaces followed by p or px (case-insensitive); yields the rounded
value. -/
def parsePxChars (cs : List Char) : Option Int :=
  let signed : Bool × List Char :=
    match cs with
    | '-' :: rest => (true, rest)
    | _ => (false, cs)
  let neg := signed.1
  let cs1 := signed.2
  let ip := cs1.takeWhile isAsciiDigit
  let rest1 := cs1.dropWhile isAsciiDigit
  if ip = [] then none
  else
    let fracParse : Option (List Char × List Char) :=
      match rest1 with
      | '.' :: r =>
        let f := r.takeWhile isAsciiDigit
        if f = [] then none else some (f, r.dropWhile isAsciiDigit)
      | _ => some ([], rest1)
    match fracParse with
    | none => none
    | some (frac, rest2) =>
      let unitOk : Bool :=
        if rest2 = [] then true
        else
          match rest2.dropWhile isJsSpace with
          | [pch] => pch = 'p' || pch = 'P'
          | [pch, xch] => (pch = 'p' || pch = 'P') && (xch = 'x' || xch = 'X')
          | _ => false
      if unitOk then some (roundMag (digitsToNat ip) frac neg) else none

/-- The private pxToNumber helper: null/empty yields null, a finite number
is rounded, and a string is trimmed and matched against number-with-
optional-px; anything else yields null. -/
def pxToNumber (val : Option JsVal) : Option Int :=
  match val with
  | none => none
  | some (.num n) => some n
  | some (.str s) => if s = "" then none else parsePxChars (jsTrim s.data)

/-! ### Interchange style records and the key mapper -/

/-- Interchange style record: the style-vocabulary fields a spreadsheet
style object (or a cell record read as one) can carry. An absent field is
none; boolean fields keep only real booleans because the source compares
them with strict equality. -/
structure SheetStyle where
  textAlign : Option String := none
  hAlign : Option String := none
  vAlign : Option String := none
  verticalAlign : Option String := none
  wrap : Option Bool := none
  wordWrap : Option Bool := none
  wrapText : Option Bool := none
  fontFamily : Option String := none
  fontSize : Option JsVal := none
  color : Option String := none
  fontColor : Option String := none
  foreColor : Option String := none
  background : Option String := none
  bgColor : Option String := none
  backColor : Option String := none
  backgroundColor : Option String := none
  fillColor : Option String := none
  fontWeight : Option String := none
  bold : Option Bool := none
  fontStyle : Option String := none
  italic : Option Bool := none
  underline : Option Bool := none
  strike : Option Bool := none
deriving DecidableEq, Repr

/-- JS truthiness of a possibly-absent string field (only the empty string
is falsy among strings). -/
def truthyS (v : Option String) : Bool :=
  match v with
  | none => false
  | some s => s ≠ ""

/-- Value of a JS || chain over string fields: the first truthy one. -/
def firstTruthyS : List (Option String) → Option String
  | [] => none
  | v :: rest => if truthyS v then v else firstTruthyS rest

/-- ASCII lowercasing of String.prototype.toLowerCase on the values met
here. -/
def lowerChar (ch : Char) : Char :=
  if 65 ≤ ch.toNat ∧ ch.toNat ≤ 90 then Char.ofNat (ch.toNat + 32) else ch

/-- ASCII lowercasing of a string. -/
def lowerStr (s : String) : String := String.mk (s.data.map lowerChar)

/-- String.prototype.includes on character lists. -/
def containsSub (hay sub : List Char) : Bool :=
  (List.range (hay.length + 1)).any (fun i => sub.isPrefixOf (hay.drop i))

/-- Truthy read style[k] of a stored style map. -/
def getTruthy (st : Style) (k : String) : Option String :=
  match jsGet st k with
  | some v => if v = "" then none else some v
  | none => none

/-- The mapStyle closure of the import path: translate an interchange style
record into the canonical CSS-like vocabulary, following the exact
assignment order of the source (later assignments overwrite earlier ones
for the same canonical key). -/
def mapStyle (style : Option SheetStyle) : Option Style :=
  match style with
  | none => none
  | some s =>
    let out : Style := []
    let out := if truthyS s.textAlign then jsSet out "textAlign" (s.textAlign.getD "") else out
    let out := if truthyS s.hAlign then jsSet out "textAlign" (s.hAlign.getD "") else out
    let out :=
      if truthyS s.vAlign then
        let v := lowerStr (s.vAlign.getD "")
        jsSet out "verticalAlign" (if v = "center" then "middle" else v)
      else out
    let out :=
      if truthyS s.verticalAlign then
        let v := lowerStr (s.verticalAlign.getD "")
        jsSet out "verticalAlign" (if v = "center" then "middle" else v)
      else out
    let out :=
      if s.wrap = some true ∨ s.wordWrap = some true ∨ s.wrapText = some true then
        jsSet out "whiteSpace" "normal"
      else out
    let out :=
      if s.wrap = some false ∨ s.wordWrap = some false ∨ s.wrapText = some false then
        jsSet out "whiteSpace" "nowrap"
      else out
    let out := if truthyS s.fontFamily then jsSet out "fontFamily" (s.fontFamily.getD "") else out
    let out :=
      match s.fontSize with
      | none => out
      | some fs =>
        if fs = .str "" then out
        else
          match jsNumberRound fs with
          | some n => jsSet out "fontSize" (intToStr n ++ "px")
          | none => jsSet out "fontSize" (jsValToStr fs)
    let out :=
      match firstTruthyS [s.color, s.fontColor, s.foreColor] with
      | some v => jsSet out "color" v
      | none => out
    let out :=
      match firstTruthyS [s.background, s.bgColor, s.backColor, s.backgroundColor, s.fillColor] with
      | some v => jsSet out "background" v
      | none => out
    let out := if truthyS s.fontWeight then jsSet out "fontWeight" (s.fontWeight.getD "") else out
    let out := if s.bold = some true then jsSet out "fontWeight" "bold" else out
    let out := if truthyS s.fontStyle then jsSet out "fontStyle" (s.fontStyle.getD "") else out
    let out := if s.italic = some true then jsSet out "fontStyle" "italic" else out
    let out :=
      if s.underline = some true ∧ s.strike = some true then
        jsSet out "textDecoration" "underline line-through"
      else if s.underline = some true then jsSet out "textDecoration" "underline"
      else if s.strike = some true then jsSet out "textDecoration" "line-through"
      else out
    if out = [] then none else some out

/-- The private mapToSpreadsheetStyle helper of the export path: translate a
canonical style map into an interchange style record; an empty result is
null. -/
def mapToSpreadsheetStyle (style : Option Style) : Option SheetStyle :=
  match style with
  | none => none
  | some st =>
    let out : SheetStyle := {}
    let out :=
      match getTruthy st "textAlign" with
      | some ta => { out with textAlign := some ta }
      | none => out
    let out :=
      match getTruthy st "verticalAlign" with
      | some v0 =>
        let v := lowerStr v0
        { out with verticalAlign := some (if v = "middle" then "center" else v) }
      | none => out
    let out :=
      match getTruthy st "whiteSpace" with
      | some w0 =>
        let ws := lowerStr w0
        if ws = "normal" then { out with wrap := some true }
        else if ws = "nowrap" then { out with wrap := some false }
        else out
      | none => out
    let out :=
      match getTruthy st "fontFamily" with
      | some ff => { out with fontFamily := some ff }
      | none => out
    let out :=
      match jsGet st "fontSize" with
      | some fsv =>
        if fsv = "" then out
        else
          match pxToNumber (some (.str fsv)) with
          | some n => { out with fontSize := some (.num n) }
          | none => { out with fontSize := some (.str fsv) }
      | none => out
    let out :=
      match getTruthy st "color" with
      | some cv => { out with color := some cv }
      | none => out
    let out :=
      match firstTruthyS [jsGet st "background", jsGet st "backgroundColor"] with
      | some bg => { out with background := some bg }
      | none => out
    let out :=
      match getTruthy st "fontWeight" with
      | some fw0 =>
        let fw := lowerStr fw0
        if fw = "bold" then { out with bold := some true }
        else if jsNumGe600 fw then { out with bold := some true }
        else out
      | none => out
    let out :=
      match getTruthy st "fontStyle" with
      | some fs0 => if lowerStr fs0 = "italic" then { out with italic := some true } else out
      | none => out
    let out :=
      match getTruthy st "textDecoration" with
      | some td0 =>
        let td := (lowerStr td0).data
        let out := if containsSub td "underline".data then { out with underline := some true } else out
        if containsSub td "line-through".data then { out with strike := some true } else out
      | none => out
    if out = ({} : SheetStyle) then none else some out

/-! ### Interchange document shapes -/

/-- Column descriptor of the interchange schema: width when the record has
a numeric width, none for an empty descriptor or a non-numeric width. -/
structure SheetColumn where
  width : Option Int := none
deriving DecidableEq, Repr

/-- Cell record of the interchange schema. index/col/c are the column-index
aliases (resolved before numeric coercion; a missing or non-finite value is
none). value/text/displayText/v are the value aliases. style/s are the
nested style records. inline holds the style-vocabulary keys sitting
directly on the cell record itself (the import mapper also applies mapStyle
to the whole cell record). -/
structure SheetCell where
  index : Option Int := none
  col : Option Int := none
  c : Option Int := none
  value : Option JsVal := none
  text : Option JsVal := none
  displayText : Option JsVal := none
  v : Option JsVal := none
  style : Option SheetStyle := none
  s : Option SheetStyle := none
  inline : SheetStyle := {}
deriving DecidableEq, Repr

/-- Resolved column index cell.index ?? cell.col ?? cell.c. -/
def SheetCell.idx (cell : SheetCell) : Option Int :=
  cell.index <|> cell.col <|> cell.c

/-- Row record of the interchange schema; index and height are none when
missing or non-finite. -/
structure SheetRow where
  index : Option Int := none
  height : Option Int := none
  cells : List SheetCell := []
deriving DecidableEq, Repr

/-- Sheet record. The frozenRows/frozenColumns/hyperlinks/drawings fields
written by the export are constants the import never reads and are
omitted. -/
structure Sheet where
  name : String := ""
  columns : List SheetColumn := []
  rows : List SheetRow := []
  selection : Option (List Char) := none
  activeCell : Option (List Char) := none
  mergedCells : List (List Char) := []
  defaultCellStyle : Option SheetStyle := none
deriving DecidableEq, Repr

/-- Top-level interchange document. The names/images fields written by the
export are never read back and are omitted. -/
structure SpreadsheetDoc where
  activeSheet : Option String := none
  sheets : List Sheet := []
  defaultCellStyle : Option SheetStyle := none
  columnWidth : Option Int := none
  rowHeight : Option Int := none
deriving DecidableEq, Repr

/-- Engine selection state (the transient _selection field). -/
inductive Sel where
  | cell (r c : Nat)
  | col (c : Nat)
  | row (r : Nat)
deriving DecidableEq, Repr

/-- Engine state relevant to the model and the codec: the model, the
spreadsheet default cell style (_defaultCellStyle) and the selection
(_selection). -/
structure EngineState where
  model : Model
  defaultCellStyle : Option Style := none
  selection : Option Sel := none
deriving DecidableEq, Repr

/-! ### Export (toSpreadsheetJSON) -/

/-- Active-cell label written by the export for the current selection. -/
def activeCellLabel (sel : Option Sel) : List Char :=
  match sel with
  | some (.cell r c) => colIndexToLabel c ++ natToChars (r + 1)
  | some (.col c) => colIndexToLabel c ++ ['1']
  | some (.row r) => 'A' :: natToChars (r + 1)
  | none => ['A', '1']

/-- Style overrides of cell (r, c) for export: iterate the column, row and
cell layers in that order, keep every non-empty value that differs from the
grid default style value for that key. -/
def overridesFor (st : EngineState) (r c : Nat) : Style :=
  let m := st.model
  let defaultStyle := st.defaultCellStyle.getD []
  let layers := [m.columnStyles.getD c none, m.rowStyles.getD r none,
    jsGet m.cellStyles (r, c)]
  layers.foldl (fun overrides layer =>
    match layer with
    | none => overrides
    | some l =>
      l.foldl (fun ov kv =>
        if kv.2 = "" then ov
        else
          match jsGet defaultStyle kv.1 with
          | some dv => if dv = kv.2 then ov else jsSet ov kv.1 kv.2
          | none => jsSet ov kv.1 kv.2) overrides) []

/-- Cell record emitted for (r, c): present when the cell has non-empty
text or a non-empty mapped override style. -/
def exportCell (st : EngineState) (r c : Nat) : Option SheetCell :=
  let v := getData st.model r c
  let styled := mapToSpreadsheetStyle (some (overridesFor st r c))
  let hasContent := v ≠ ""
  if hasContent ∨ styled ≠ none then
    some { index := some (c : Int)
           value := if hasContent then some (.str v) else none
           style := styled }
  else none

/-- Row record emitted for r: present when some cell is emitted or the row
style has a parsable height. -/
def exportRow (st : EngineState) (r : Nat) : Option SheetRow :=
  let m := st.model
  let rowStyle := m.rowStyles.getD r none
  let height := pxToNumber ((rowStyle.bind (fun rs => jsGet rs "height")).map .str)
  let cells := (List.range (colsNat m)).filterMap (exportCell st r)
  if cells ≠ [] ∨ height ≠ none then
    some { index := some (r : Int), height := height, cells := cells }
  else none

/-- Column descriptor emitted for c: the parsed pixel width when present. -/
def exportColumn (m : Model) (c : Nat) : SheetColumn :=
  let cs := m.columnStyles.getD c none
  { width := pxToNumber ((cs.bind (fun s => jsGet s "width")).map .str) }

/-- The single sheet record built by toSpreadsheetJSON: sparse rows, column
descriptors, A1 merge strings, the mapped default style and the selection
address. -/
def exportSheet (st : EngineState) : Sheet :=
  { name := "Sheet1"
    columns := (List.range (colsNat st.model)).map (exportColumn st.model)
    rows := (List.range (rowsNat st.model)).filterMap (exportRow st)
    selection := some (activeCellLabel st.selection)
    activeCell := some (activeCellLabel st.selection)
    mergedCells := st.model.mergedCells.map
      (fun mr => rangeToA1 (mr.sr, mr.sc) (mr.er, mr.ec))
    defaultCellStyle := mapToSpreadsheetStyle st.defaultCellStyle }

/-- toSpreadsheetJSON: one sheet named Sheet1, with the envelope constants
columnWidth 64 and rowHeight 21. -/
def toSpreadsheetJSON (st : EngineState) : SpreadsheetDoc :=
  { activeSheet := some "Sheet1"
    sheets := [exportSheet st]
    columnWidth := some 64
    rowHeight := some 21 }

/-! ### Import (fromSpreadsheetJSON) -/

/-- Sheet picked by the import: the sheet whose name equals the (truthy)
activeSheet, else the first sheet, else none. -/
def pickSheet (json : SpreadsheetDoc) : Option Sheet :=
  let sheets := json.sheets
  let activeName : Option String :=
    match json.activeSheet with
    | some s => if s ≠ "" then some s else sheets.head?.map Sheet.name
    | none => sheets.head?.map Sheet.name
  match sheets.find? (fun s => activeName = some s.name) with
  | some s => some s
  | none => sheets.head?

/-- Raise the running (maxRow, maxCol) by a parsed A1 address. -/
def bumpA1 (mrc : Int × Int) (a1 : List Char) : Int × Int :=
  match parseA1 a1 with
  | some p => (max mrc.1 p.1, max mrc.2 p.2)
  | none => mrc

/-- Raise the running (maxRow, maxCol) by the end corner of a parsed A1
range. -/
def bumpRange (mrc : Int × Int) (rng : List Char) : Int × Int :=
  match parseA1Range rng with
  | some pr => (max mrc.1 pr.er, max mrc.2 pr.ec)
  | none => mrc

/-- Inner scan of one row record for the maximal cell-column index. -/
def dimsCellFold (cells : List SheetCell) (acc : Int × Int) : Int × Int :=
  cells.foldl (fun acc2 cell =>
    match cell.idx with
    | some ci => (acc2.1, max acc2.2 ci)
    | none => acc2) acc

/-- Scan of the sparse rows for the maximal row and cell-column indices. -/
def dimsFromRows (rows : List SheetRow) (mrc : Int × Int) : Int × Int :=
  rows.foldl (fun acc r =>
    dimsCellFold r.cells
      (match r.index with
       | some ri => (max acc.1 ri, acc.2)
       | none => acc)) mrc

/-- Step of the merged-cells scan: raise the running maxima by the range and
collect it when it parses. -/
def mergeScan (acc : (Int × Int) × List RawA1Range) (rng : List Char) :
    (Int × Int) × List RawA1Range :=
  let m1 := bumpRange acc.1 rng
  match parseA1Range rng with
  | some pr => (m1, acc.2 ++ [pr])
  | none => (m1, acc.2)

/-- Dimension inference of the import: rows/cells scan, column-descriptor
count, activeCell, selection, then every merge range (collecting the parsed
merges along the way). Yields ((maxRow, maxCol), parsedMerges). -/
def importDims (sheet : Sheet) : (Int × Int) × List RawA1Range :=
  let mrc := dimsFromRows sheet.rows (-1, -1)
  let mrc := (mrc.1, max mrc.2 ((sheet.columns.length : Int) - 1))
  let mrc :=
    match sheet.activeCell with
    | some ac => if ac ≠ [] then bumpA1 mrc ac else mrc
    | none => mrc
  let mrc :=
    match sheet.selection with
    | some s => if s ≠ [] then bumpRange mrc s else mrc
    | none => mrc
  sheet.mergedCells.foldl mergeScan (mrc, [])

/-- Write data[ri][ci] = v for the in-range indices the import produces
(the import never writes out of range: every finite index it writes was
folded into the inferred dimensions; a negative index would fault in the
source and does not occur). -/
def set2d (g : List (List String)) (ri ci : Int) (v : String) : List (List String) :=
  if 0 ≤ ri ∧ 0 ≤ ci then
    g.set ri.toNat ((g.getD ri.toNat []).set ci.toNat v)
  else g

/-- Cell text resolved by the import: first present of value, text,
displayText, v, stringified; empty when all are absent. -/
def resolveValue (cell : SheetCell) : String :=
  match cell.value <|> cell.text <|> cell.displayText <|> cell.v with
  | none => ""
  | some jv => jsValToStr jv

/-- Write one cell record into the grid at its resolved column of row ri. -/
def fillCell (ri : Int) (g : List (List String)) (cell : SheetCell) :
    List (List String) :=
  match cell.idx with
  | none => g
  | some ci => set2d g ri ci (resolveValue cell)

/-- Fill the dense data grid from the sparse row records. -/
def fillData (g : List (List String)) (rows : List SheetRow) : List (List String) :=
  rows.foldl (fun g r =>
    match r.index with
    | none => g
    | some ri => r.cells.foldl (fillCell ri) g) g

/-- Column styles built by the import: per-column width, with the envelope
columnWidth as fallback, stored as a px string. -/
def importColumnStyles (json : SpreadsheetDoc) (sheet : Sheet) (cols : Nat) :
    List (Option Style) :=
  (List.range cols).map (fun c =>
    let widthNum :=
      match sheet.columns.get? c with
      | some colRec =>
        match colRec.width with
        | some w => some w
        | none => json.columnWidth
      | none => json.columnWidth
    match widthNum with
    | some w => some [("width", intToStr w ++ "px")]
    | none => none)

/-- Map from explicit row index to height, collected from the row records
(a later record with the same index overwrites an earlier one, as with
Map.set). -/
def importRowHeights (rows : List SheetRow) : List (Int × Int) :=
  rows.foldl (fun acc r =>
    match r.index, r.height with
    | some ri, some h => jsSet acc ri h
    | _, _ => acc) []

/-- Row styles built by the import: per-row height with the envelope
rowHeight as fallback, stored as a px string. -/
def importRowStyles (json : SpreadsheetDoc) (sheet : Sheet) (rowsN : Nat) :
    List (Option Style) :=
  let rowHeights := importRowHeights sheet.rows
  (List.range rowsN).map (fun r =>
    let h :=
      match jsGet rowHeights (r : Int) with
      | some hv => some hv
      | none => json.rowHeight
    match h with
    | some hv => some [("height", intToStr hv ++ "px")]
    | none => none)

/-- Object spread of two style maps: every entry of b written over a. -/
def jsMergeObj (a b : Style) : Style :=
  b.foldl (fun acc kv => jsSet acc kv.1 kv.2) a

/-- Cell styles built by the import: nested style (style or s) mapped, then
the inline keys of the cell record mapped over it, merged over the default
style, sanitized, and stored under the cell key when non-null. -/
def importCellStyles (defaultMapped : Option Style) (rows : List SheetRow) :
    List ((Nat × Nat) × Style) :=
  rows.foldl (fun acc r =>
    match r.index with
    | none => acc
    | some ri =>
      r.cells.foldl (fun acc cell =>
        match cell.idx with
        | none => acc
        | some ci =>
          let mappedNested := (mapStyle (cell.style <|> cell.s)).getD []
          let mappedInline := (mapStyle (some cell.inline)).getD []
          let combined := jsMergeObj mappedNested mappedInline
          let merged :=
            match defaultMapped with
            | some d => jsMergeObj d combined
            | none => combined
          match sanitizeStyle (some (toRaw merged)) with
          | some sv =>
            if 0 ≤ ri ∧ 0 ≤ ci then jsSet acc (ri.toNat, ci.toNat) sv else acc
          | none => acc) acc) []

/-- Math.max(lo, Math.min(hi, v)). -/
def clampI (v lo hi : Int) : Int := max lo (min hi v)

/-- Selection restored by the import: prefer the selection range (full-row
and full-column ranges become row/column selections, anything else the cell
at the clamped range start), else the activeCell address. -/
def importSelection (sheet : Sheet) (rowsN colsN : Nat) : Option Sel :=
  let fromSelection : Option Sel :=
    match sheet.selection with
    | some s0 =>
      if jsTrim s0 = [] then none
      else
        match parseA1Range (jsTrim s0) with
        | some rng =>
          let sr := clampI rng.sr 0 ((rowsN : Int) - 1)
          let er := clampI rng.er 0 ((rowsN : Int) - 1)
          let sc := clampI rng.sc 0 ((colsN : Int) - 1)
          let ec := clampI rng.ec 0 ((colsN : Int) - 1)
          if sr = er ∧ sc = 0 ∧ ec = (colsN : Int) - 1 then some (.row sr.toNat)
          else if sc = ec ∧ sr = 0 ∧ er = (rowsN : Int) - 1 then some (.col sc.toNat)
          else some (.cell sr.toNat sc.toNat)
        | none => none
    | none => none
  match fromSelection with
  | some sel => some sel
  | none =>
    match sheet.activeCell with
    | some a0 =>
      if jsTrim a0 = [] then none
      else
        match parseA1 (jsTrim a0) with
        | some p =>
          some (.cell (clampI p.1 0 ((rowsN : Int) - 1)).toNat
            (clampI p.2 0 ((colsN : Int) - 1)).toNat)
        | none => none
    | none => none

/-- The private fromSpreadsheetJSON method: pick the active sheet (silently
returning the unchanged state when there is none), infer dimensions with a
2x2 floor, fill data, build column/row/cell styles, sanitize merges, and
restore the selection. -/
def fromSpreadsheetJSON (st : EngineState) (json : SpreadsheetDoc) : EngineState :=
  match pickSheet json with
  | none => st
  | some sheet =>
    let dims := importDims sheet
    let rowsN : Nat := (max 2 (dims.1.1 + 1)).toNat
    let colsN : Nat := (max 2 (dims.1.2 + 1)).toNat
    let data := fillData (List.replicate rowsN (List.replicate colsN "")) sheet.rows
    let defaultMapped := mapStyle (sheet.defaultCellStyle <|> json.defaultCellStyle)
    { model :=
        { rows := (rowsN : Int)
          cols := (colsN : Int)
          data := data
          columnStyles := importColumnStyles json sheet colsN
          rowStyles := importRowStyles json sheet rowsN
          cellStyles := importCellStyles defaultMapped sheet.rows
          mergedCells := sanitizeMerges
            (dims.2.map (fun pr => RawMerge.rng pr.sr pr.sc pr.er pr.ec)) rowsN colsN }
      defaultCellStyle := defaultMapped
      selection := importSelection sheet rowsN colsN }

/-- fromJSON on a spreadsheet-shaped payload (obj.sheets is an array): the
source dispatches straight to fromSpreadsheetJSON; the internal-model branch
does not apply to these inputs. -/
def fromJSON (st : EngineState) (json : SpreadsheetDoc) : EngineState :=
  fromSpreadsheetJSON st json

/-! ### Toolbar style application -/

/-- Patch argument of the private applyStyleToSelection helper: the literal
string clear, or a style patch object whose null or empty values delete
keys. -/
inductive StylePatch where
  | clear
  | patch (entries : RawStyle)
deriving DecidableEq, Repr

/-- Apply patch entries over a copy of a current style: null or empty
values delete the key, others overwrite it. -/
def applyPatchEntries (cur : Style) (entries : RawStyle) : Style :=
  entries.foldl (fun acc kv =>
    match kv.2 with
    | none => jsDelete acc kv.1
    | some v => if v = "" then jsDelete acc kv.1 else jsSet acc kv.1 v) cur

/-- The private applyStyleToSelection helper: clear delegates to the
null-style setters; a patch on a cell updates that cell; a patch on a column
or row updates the column/row style and also writes per-cell overrides into
every cell of that column/row (width, a column-only property, is excluded
from cell and row targets). -/
def applyStyleToSelection (st : EngineState) (p : StylePatch) : EngineState :=
  match st.selection with
  | none => st
  | some sel =>
    match p with
    | .clear =>
      match sel with
      | .cell r c => { st with model := setCellStyle st.model r c none }
      | .col c => { st with model := setColumnStyle st.model c none }
      | .row r => { st with model := setRowStyle st.model r none }
    | .patch entries =>
      match sel with
      | .cell r c =>
        let entries := jsDelete entries "width"
        let cur := (getCellStyle st.model r c).getD []
        let next := applyPatchEntries cur entries
        { st with model := setCellStyle st.model r c (some (toRaw next)) }
      | .col c =>
        let cur := (getColumnStyle st.model c).getD []
        let next := applyPatchEntries cur entries
        let perCellPatch := jsDelete entries "width"
        let m1 := (List.range (rowsNat st.model)).foldl (fun m r =>
          let curCell := (jsGet m.cellStyles (r, c)).getD []
          let nextCell := applyPatchEntries curCell perCellPatch
          match sanitizeStyle (some (toRaw nextCell)) with
          | some sv => { m with cellStyles := jsSet m.cellStyles (r, c) sv }
          | none => { m with cellStyles := jsDelete m.cellStyles (r, c) }) st.model
        { st with model := setColumnStyle m1 c (some (toRaw next)) }
      | .row r =>
        let rowPatch := jsDelete entries "width"
        let cur := (getRowStyle st.model r).getD []
        let next := applyPatchEntries cur rowPatch
        let m1 := (List.range (colsNat st.model)).foldl (fun m c =>
          let curCell := (jsGet m.cellStyles (r, c)).getD []
          let nextCell := applyPatchEntries curCell rowPatch
          match sanitizeStyle (some (toRaw nextCell)) with
          | some sv => { m with cellStyles := jsSet m.cellStyles (r, c) sv }
          | none => { m with cellStyles := jsDelete m.cellStyles (r, c) }) st.model
        { st with model := setRowStyle m1 r (some (toRaw next)) }

/-- Concrete engine state used by counterexamples and witnesses: a 2 by 2
grid with text in the top-left cell, a per-cell fontWeight 400 override, and
one 1 by 2 merge across the first row. -/
def sampleState : EngineState :=
  { model :=
      { rows := 2
        cols := 2
        data := [["x", ""], ["", ""]]
        columnStyles := [none, none]
        rowStyles := [none, none]
        cellStyles := [((0, 0), [("fontWeight", "400")])]
        mergedCells := [⟨0, 0, 0, 1⟩] }
    defaultCellStyle := none
    selection := none }

/-! ## Basic lemmas about the JS object operations -/

theorem jsGet_jsSet_self {κ α : Type} [DecidableEq κ] (m : List (κ × α)) (k : κ) (v : α) :
    jsGet (jsSet m k v) k = some v := by
  induction m with
  | nil => simp [jsSet, jsGet]
  | cons kv rest ih =>
    obtain ⟨k1, v1⟩ := kv
    by_cases h : k1 = k
    · simp [jsSet, h, jsGet]
    · simp [jsSet, h, jsGet, ih]

theorem jsGet_jsSet_ne {κ α : Type} [DecidableEq κ] (m : List (κ × α)) (k k1 : κ) (v : α)
    (h : k1 ≠ k) : jsGet (jsSet m k v) k1 = jsGet m k1 := by
  induction m with
  | nil => simp [jsSet, jsGet, Ne.symm h]
  | cons kv rest ih =>
    obtain ⟨k0, v0⟩ := kv
    by_cases h0 : k0 = k
    · subst h0
      simp [jsSet, jsGet, h, Ne.symm h]
    · simp only [jsSet, if_neg h0]
      by_cases h1 : k0 = k1
      · subst h1; simp [jsGet]
      · simp [jsGet, h1, ih]

theorem jsSet_length_le {κ α : Type} [DecidableEq κ] (m : List (κ × α)) (k : κ) (v : α) :
    (jsSet m k v).length ≤ m.length + 1 := by
  induction m with
  | nil => simp [jsSet]
  | cons kv rest ih =>
    obtain ⟨k1, v1⟩ := kv
    by_cases h : k1 = k
    · simp [jsSet, h]
    · simp only [jsSet, if_neg h, List.length_cons]
      omega

/-! ## C3: addRow -/

/-- C3 (amended): addRow appends exactly one row of cols empty strings,
increments rows by one, and leaves rowStyles, cellStyles and mergedCells
unchanged; in particular it does not extend rowStyles, so the rowStyles
length invariant is not maintained by addRow (a missing entry reads back as
null). -/
theorem addRow_appends_row_and_leaves_styles (m : Model) :
    (addRow m).rows = m.rows + 1 ∧
    (addRow m).data = m.data ++ [List.replicate (colsNat m) ""] ∧
    (addRow m).rowStyles = m.rowStyles ∧
    (addRow m).cellStyles = m.cellStyles ∧
    (addRow m).mergedCells = m.mergedCells :=
  ⟨rfl, rfl, rfl, rfl, rfl⟩

/-- C3 (counterexample): on a fresh 2 by 2 model, addRow yields rows = 3
while rowStyles still has 2 entries; in particular rowStyles is not extended
by a null entry as the claim states. -/
theorem addRow_rowStyles_not_extended :
    (addRow (createEmptyModel 2 2)).rows = 3 ∧
    (addRow (createEmptyModel 2 2)).rowStyles.length = 2 ∧
    ¬((addRow (createEmptyModel 2 2)).rowStyles =
        (createEmptyModel 2 2).rowStyles ++ [none]) := by
  decide

/-! ## C4: construction -/

/-- C4 (amended): construction performs no dimension validation. A negative
row count is stored as given (the data array clamps to zero rows), so
construction can produce a model whose rows field is negative; only an
absent (null or undefined) option falls back to the default 2. -/
theorem constructorModel_stores_negative_rows (r : Int) (hr : r < 0) :
    (constructorModel (some r) (some 2)).rows = r ∧
    (constructorModel (some r) (some 2)).data = [] ∧
    (constructorModel none none).rows = 2 ∧
    (constructorModel none none).cols = 2 := by
  refine ⟨rfl, ?_, rfl, rfl⟩
  simp [constructorModel, createEmptyModel, toLength, Int.toNat_of_nonpos hr.le]

/-- Witness for the amended C4 theorem at r = -1. -/
theorem constructorModel_stores_negative_rows_witness :
    (-1 : Int) < 0 ∧
    ((constructorModel (some (-1)) (some 2)).rows = -1 ∧
      (constructorModel (some (-1)) (some 2)).data = [] ∧
      (constructorModel none none).rows = 2 ∧
      (constructorModel none none).cols = 2) :=
  ⟨by decide, constructorModel_stores_negative_rows (-1) (by decide)⟩

/-- C4 (counterexample): constructing with rows = -1 does not fail with any
error (construction is total) and yields a model whose rows field is the
negative number itself, contradicting both the InvalidDimension failure and
the never-negative guarantee of the claim. -/
theorem constructorModel_negative_not_rejected :
    (constructorModel (some (-1)) (some 2)).rows = -1 ∧
    (constructorModel (some (-1)) (some 2)).rows < 0 := by
  decide

/-! ## C5: import of an empty sheets list -/

/-- C5 (amended): importing a spreadsheet payload whose sheets list is empty
is a silent no-op: the import returns without signalling any error and the
prior model, default style and selection are left completely unchanged. -/
theorem fromJSON_empty_sheets_noop (st : EngineState) (json : SpreadsheetDoc)
    (h : json.sheets = []) : fromJSON st json = st := by
  simp [fromJSON, fromSpreadsheetJSON, pickSheet, h]

/-- Witness for the amended C5 theorem on the sample state. -/
theorem fromJSON_empty_sheets_noop_witness :
    ({ sheets := [] } : SpreadsheetDoc).sheets = [] ∧
    fromJSON sampleState { sheets := [] } = sampleState :=
  ⟨rfl, fromJSON_empty_sheets_noop sampleState { sheets := [] } rfl⟩

/-- C5 (counterexample): on a concrete payload with no sheets, the import
returns normally (no EmptySpreadsheet failure is surfaced to the caller, the
function being total) with the engine state unchanged. -/
theorem fromJSON_empty_sheets_returns_unchanged :
    fromJSON sampleState { sheets := [] } = sampleState := by
  decide

/-! ## C9: the sanitize property cap -/

theorem sanitizeLoop_length_le (entries : RawStyle) :
    ∀ out count, out.length ≤ count → count ≤ 201 →
      (sanitizeLoop entries out count).length ≤ 201 := by
  induction entries with
  | nil => intro out count h1 h2; simpa [sanitizeLoop] using h1.trans h2
  | cons kv rest ih =>
    intro out count h1 h2
    obtain ⟨k, v⟩ := kv
    by_cases hc : 200 < count
    · simpa [sanitizeLoop, hc] using h1.trans h2
    · match v with
      | none => simpa [sanitizeLoop, hc] using ih out count h1 h2
      | some w =>
        by_cases hk : trimStr k = ""
        · simpa [sanitizeLoop, hc, hk] using ih out count h1 h2
        · have hlen : (jsSet out (trimStr k) w).length ≤ count + 1 :=
            (jsSet_length_le out (trimStr k) w).trans (by omega)
          simpa [sanitizeLoop, hc, hk] using
            ih (jsSet out (trimStr k) w) (count + 1) hlen (by omega)

/-- C9 (amended): every style stored through a style setter contains at most
201 properties (not 200: the break of the sanitize loop fires only once the
count exceeds 200, so a 201st property is still admitted). Stated through
setCellStyle: the stored style is the sanitized input, and its size is at
most 201. -/
theorem setCellStyle_stores_at_most_201 (m : Model) (r c : Nat) (raw : RawStyle)
    (out : Style) (hr : (r : Int) < m.rows) (hc : (c : Int) < m.cols)
    (hs : sanitizeStyle (some raw) = some out) :
    getCellStyle (setCellStyle m r c (some raw)) r c = some out ∧ out.length ≤ 201 := by
  constructor
  · have hr1 : ¬ m.rows ≤ (r : Int) := by omega
    have hc1 : ¬ m.cols ≤ (c : Int) := by omega
    simp [setCellStyle, getCellStyle, hr1, hc1, hs, jsGet_jsSet_self]
  · have h0 : out = sanitizeLoop raw [] 0 := by
      by_cases he : sanitizeLoop raw [] 0 = []
      · simp [sanitizeStyle, he] at hs
      · simp [sanitizeStyle, he] at hs; exact hs.symm
    have := sanitizeLoop_length_le raw [] 0 (by simp) (by omega)
    rw [h0]; exact this

/-- Witness for the amended C9 theorem on a one-property style. -/
theorem setCellStyle_stores_at_most_201_witness :
    ((0 : Int) < (createEmptyModel 2 2).rows ∧ (0 : Int) < (createEmptyModel 2 2).cols ∧
      sanitizeStyle (some [("color", some "red")]) = some [("color", "red")]) ∧
    (getCellStyle (setCellStyle (createEmptyModel 2 2) 0 0 (some [("color", some "red")])) 0 0
        = some [("color", "red")] ∧ ([("color", "red")] : Style).length ≤ 201) :=
  ⟨⟨by decide, by decide, by decide⟩,
    setCellStyle_stores_at_most_201 (createEmptyModel 2 2) 0 0 [("color", some "red")]
      [("color", "red")] (by decide) (by decide) (by decide)⟩

/-- Raw style with 202 distinct single-character keys, all mapped to the
value v. -/
def bigRawStyle : RawStyle :=
  (List.range 202).map (fun i => (String.mk [Char.ofNat (65 + i)], some "v"))

/-- C9 (counterexample): feeding 202 distinct properties through
setCellStyle stores a style with 201 properties, exceeding the cap of 200
stated by the claim. -/
theorem setCellStyle_can_store_201_properties :
    ((getCellStyle (setCellStyle (createEmptyModel 2 2) 0 0 (some bigRawStyle)) 0 0).map
        List.length) = some 201 ∧ 200 < 201 := by
  constructor
  · decide
  · decide

/-! ## C7: removeRow reindexing -/

theorem reindexCellStyles_removeRow_mem (cs : List ((Nat × Nat) × Style)) (i r c : Nat)
    (s : Style) :
    ((r, c), s) ∈ reindexCellStylesAfterRemoveRow cs i ↔
      ((r < i ∧ ((r, c), s) ∈ cs) ∨ (i ≤ r ∧ ((r + 1, c), s) ∈ cs)) := by
  induction cs with
  | nil => simp [reindexCellStylesAfterRemoveRow]
  | cons kv rest ih =>
    obtain ⟨⟨r0, c0⟩, v0⟩ := kv
    by_cases h0 : r0 = i
    · have hred : reindexCellStylesAfterRemoveRow (((r0, c0), v0) :: rest) i
          = reindexCellStylesAfterRemoveRow rest i := by
        simp [reindexCellStylesAfterRemoveRow, h0]
      rw [hred, ih]
      constructor
      · rintro (⟨hlt, hm⟩ | ⟨hge, hm⟩)
        · exact Or.inl ⟨hlt, List.mem_cons_of_mem _ hm⟩
        · exact Or.inr ⟨hge, List.mem_cons_of_mem _ hm⟩
      · rintro (⟨hlt, hm⟩ | ⟨hge, hm⟩)
        · rcases List.mem_cons.mp hm with heq | hm2
          · have h1 : r = r0 := congrArg (fun p => p.1.1) heq
            omega
          · exact Or.inl ⟨hlt, hm2⟩
        · rcases List.mem_cons.mp hm with heq | hm2
          · have h1 : r + 1 = r0 := congrArg (fun p => p.1.1) heq
            omega
          · exact Or.inr ⟨hge, hm2⟩
    · have hred : reindexCellStylesAfterRemoveRow (((r0, c0), v0) :: rest) i
          = ((if i < r0 then r0 - 1 else r0, c0), v0) ::
              reindexCellStylesAfterRemoveRow rest i := by
        simp [reindexCellStylesAfterRemoveRow, h0]
      rw [hred]
      constructor
      · intro hm
        rcases List.mem_cons.mp hm with heq | hm2
        · have h1 : r = if i < r0 then r0 - 1 else r0 := congrArg (fun p => p.1.1) heq
          have h2 : c = c0 := congrArg (fun p => p.1.2) heq
          have h3 : s = v0 := congrArg Prod.snd heq
          by_cases hir : i < r0
          · rw [if_pos hir] at h1
            refine Or.inr ⟨by omega, ?_⟩
            have h4 : ((r + 1, c), s) = ((r0, c0), v0) := by
              rw [h2, h3]
              have : r + 1 = r0 := by omega
              rw [this]
            exact List.mem_cons.mpr (Or.inl h4)
          · rw [if_neg hir] at h1
            refine Or.inl ⟨by omega, ?_⟩
            have h4 : ((r, c), s) = ((r0, c0), v0) := by rw [h1, h2, h3]
            exact List.mem_cons.mpr (Or.inl h4)
        · rcases ih.mp hm2 with ⟨hlt, hm3⟩ | ⟨hge, hm3⟩
          · exact Or.inl ⟨hlt, List.mem_cons_of_mem _ hm3⟩
          · exact Or.inr ⟨hge, List.mem_cons_of_mem _ hm3⟩
      · intro hm
        rcases hm with ⟨hlt, hm2⟩ | ⟨hge, hm2⟩
        · rcases List.mem_cons.mp hm2 with heq | hm3
          · have h1 : r = r0 := congrArg (fun p => p.1.1) heq
            have h2 : c = c0 := congrArg (fun p => p.1.2) heq
            have h3 : s = v0 := congrArg Prod.snd heq
            refine List.mem_cons.mpr (Or.inl ?_)
            rw [if_neg (by omega), h1, h2, h3]
          · exact List.mem_cons_of_mem _ (ih.mpr (Or.inl ⟨hlt, hm3⟩))
        · rcases List.mem_cons.mp hm2 with heq | hm3
          · have h1 : r + 1 = r0 := congrArg (fun p => p.1.1) heq
            have h2 : c = c0 := congrArg (fun p => p.1.2) heq
            have h3 : s = v0 := congrArg Prod.snd heq
            refine List.mem_cons.mpr (Or.inl ?_)
            rw [if_pos (by omega), h2, h3]
            have : r0 - 1 = r := by omega
            rw [this]
          · exact List.mem_cons_of_mem _ (ih.mpr (Or.inr ⟨hge, hm3⟩))

/-- Shift applied by row removal to a merge that survives it. -/
def shiftMergeRow (mo : MergeRange) (i : Nat) : MergeRange :=
  if i < mo.sr then ⟨mo.sr - 1, mo.sc, mo.er - 1, mo.ec⟩ else mo

/-- Shift applied by column removal to a merge that survives it. -/
def shiftMergeCol (mo : MergeRange) (i : Nat) : MergeRange :=
  if i < mo.sc then ⟨mo.sr, mo.sc - 1, mo.er, mo.ec - 1⟩ else mo

theorem reindexMergesRow_cons (mo : MergeRange) (rest : List MergeRange) (i : Nat) :
    reindexMergesAfterRemoveRow (mo :: rest) i =
      if mo.sr ≤ i ∧ i ≤ mo.er then reindexMergesAfterRemoveRow rest i
      else if (shiftMergeRow mo i).sr ≤ (shiftMergeRow mo i).er then
        shiftMergeRow mo i :: reindexMergesAfterRemoveRow rest i
      else reindexMergesAfterRemoveRow rest i := rfl

theorem reindexMergesCol_cons (mo : MergeRange) (rest : List MergeRange) (i : Nat) :
    reindexMergesAfterRemoveCol (mo :: rest) i =
      if mo.sc ≤ i ∧ i ≤ mo.ec then reindexMergesAfterRemoveCol rest i
      else if (shiftMergeCol mo i).sc ≤ (shiftMergeCol mo i).ec then
        shiftMergeCol mo i :: reindexMergesAfterRemoveCol rest i
      else reindexMergesAfterRemoveCol rest i := rfl

theorem shiftMergeRow_ordered (mo : MergeRange) (i : Nat) (h : mo.sr ≤ mo.er) :
    (shiftMergeRow mo i).sr ≤ (shiftMergeRow mo i).er := by
  unfold shiftMergeRow
  by_cases hlt : i < mo.sr
  · rw [if_pos hlt]; simp; omega
  · rw [if_neg hlt]; exact h

theorem reindexMerges_removeRow_mem (l : List MergeRange) (i : Nat)
    (hwf : ∀ mo ∈ l, mo.sr ≤ mo.er) (mr : MergeRange) :
    mr ∈ reindexMergesAfterRemoveRow l i ↔
      ∃ mo ∈ l, ¬(mo.sr ≤ i ∧ i ≤ mo.er) ∧ mr = shiftMergeRow mo i := by
  induction l with
  | nil => simp [reindexMergesAfterRemoveRow]
  | cons mo0 rest ih =>
    have hwf0 : mo0.sr ≤ mo0.er := hwf mo0 (by simp)
    have hwfr : ∀ mo ∈ rest, mo.sr ≤ mo.er := fun mo hm => hwf mo (by simp [hm])
    rw [reindexMergesRow_cons]
    by_cases hdrop : mo0.sr ≤ i ∧ i ≤ mo0.er
    · rw [if_pos hdrop, ih hwfr]
      constructor
      · rintro ⟨mo, hm, hnd, he⟩
        exact ⟨mo, List.mem_cons_of_mem _ hm, hnd, he⟩
      · rintro ⟨mo, hm, hnd, he⟩
        rcases List.mem_cons.mp hm with h | h
        · subst h; exact absurd hdrop hnd
        · exact ⟨mo, h, hnd, he⟩
    · rw [if_neg hdrop, if_pos (shiftMergeRow_ordered mo0 i hwf0)]
      constructor
      · intro hm
        rcases List.mem_cons.mp hm with he | hm2
        · exact ⟨mo0, List.mem_cons_self _ _, hdrop, he⟩
        · obtain ⟨mo, hm3, hnd, he⟩ := (ih hwfr).mp hm2
          exact ⟨mo, List.mem_cons_of_mem _ hm3, hnd, he⟩
      · rintro ⟨mo, hm, hnd, he⟩
        rcases List.mem_cons.mp hm with h | h
        · subst h; exact List.mem_cons.mpr (Or.inl he)
        · exact List.mem_cons_of_mem _ ((ih hwfr).mpr ⟨mo, h, hnd, he⟩)

/-- C7: for a valid removal index i (rows greater than 1, i within range),
removeRow drops every cell-style entry at row i and shifts entries at rows
above i down by one while keeping rows below i unchanged (the first two
conjuncts together determine the entry set completely), and the resulting
merge list consists exactly of the ranges whose row span does not contain i,
shifted down by one when they lie below the removed row — so a merge
spanning row i disappears entirely and is never shrunk (third conjunct).
The merge hypothesis is the stored-merge ordering invariant established by
sanitizeMerges. -/
theorem removeRow_reindexes_styles_and_merges (m : Model) (i : Nat)
    (hrows : 1 < m.rows) (hi : (i : Int) < m.rows)
    (hwf : ∀ mo ∈ m.mergedCells, mo.sr ≤ mo.er) :
    (∀ r c s, r < i →
      (((r, c), s) ∈ (removeRow m i).cellStyles ↔ ((r, c), s) ∈ m.cellStyles)) ∧
    (∀ r c s, i ≤ r →
      (((r, c), s) ∈ (removeRow m i).cellStyles ↔ ((r + 1, c), s) ∈ m.cellStyles)) ∧
    (∀ mr, mr ∈ (removeRow m i).mergedCells ↔
      ∃ mo ∈ m.mergedCells, ¬(mo.sr ≤ i ∧ i ≤ mo.er) ∧ mr = shiftMergeRow mo i) := by
  have hg1 : ¬ m.rows ≤ 1 := by omega
  have hg2 : ¬ m.rows ≤ (i : Int) := by omega
  have hcell : (removeRow m i).cellStyles
      = reindexCellStylesAfterRemoveRow m.cellStyles i := by
    simp [removeRow, hg1, hg2]
  have hmerge : (removeRow m i).mergedCells
      = reindexMergesAfterRemoveRow m.mergedCells i := by
    simp [removeRow, hg1, hg2]
  refine ⟨?_, ?_, ?_⟩
  · intro r c s hr
    rw [hcell, reindexCellStyles_removeRow_mem]
    constructor
    · rintro (⟨_, hm⟩ | ⟨hge, _⟩)
      · exact hm
      · omega
    · intro hm; exact Or.inl ⟨hr, hm⟩
  · intro r c s hr
    rw [hcell, reindexCellStyles_removeRow_mem]
    constructor
    · rintro (⟨hlt, _⟩ | ⟨_, hm⟩)
      · omega
      · exact hm
    · intro hm; exact Or.inr ⟨hr, hm⟩
  · intro mr
    rw [hmerge]
    exact reindexMerges_removeRow_mem m.mergedCells i hwf mr

/-- Witness for the C7 theorem: remove row 1 of the 3-row model obtained by
adding a row to the sample model (it carries a cell style at row 0 and a
merge over row 0). -/
theorem removeRow_reindexes_styles_and_merges_witness :
    (1 < (addRow sampleState.model).rows ∧
      ((1 : Nat) : Int) < (addRow sampleState.model).rows ∧
      (∀ mo ∈ (addRow sampleState.model).mergedCells, mo.sr ≤ mo.er)) ∧
    ((∀ r c s, r < 1 →
      (((r, c), s) ∈ (removeRow (addRow sampleState.model) 1).cellStyles ↔
        ((r, c), s) ∈ (addRow sampleState.model).cellStyles)) ∧
    (∀ r c s, 1 ≤ r →
      (((r, c), s) ∈ (removeRow (addRow sampleState.model) 1).cellStyles ↔
        ((r + 1, c), s) ∈ (addRow sampleState.model).cellStyles)) ∧
    (∀ mr, mr ∈ (removeRow (addRow sampleState.model) 1).mergedCells ↔
      ∃ mo ∈ (addRow sampleState.model).mergedCells,
        ¬(mo.sr ≤ 1 ∧ 1 ≤ mo.er) ∧ mr = shiftMergeRow mo 1)) :=
  ⟨⟨by decide, by decide, by decide⟩,
    removeRow_reindexes_styles_and_merges (addRow sampleState.model) 1
      (by decide) (by decide) (by decide)⟩

/-! ## C10: the merge invariant -/

/-- Well-formedness of a stored merge range for a rows by cols grid:
ordered corners, in bounds, and not a 1 by 1 range. -/
def MergeWf (rows cols : Nat) (mr : MergeRange) : Prop :=
  mr.sr ≤ mr.er ∧ mr.sc ≤ mr.ec ∧ mr.er < rows ∧ mr.ec < cols ∧
    ¬(mr.sr = mr.er ∧ mr.sc = mr.ec)

instance (rows cols : Nat) (mr : MergeRange) : Decidable (MergeWf rows cols mr) := by
  unfold MergeWf; infer_instance

theorem sanitizeMerges_wf (raw : List RawMerge) (rows cols : Nat)
    (hr : 1 ≤ rows) (hc : 1 ≤ cols) :
    ∀ mr ∈ sanitizeMerges raw rows cols, MergeWf rows cols mr := by
  induction raw with
  | nil => simp [sanitizeMerges]
  | cons m rest ih =>
    intro mr hmr
    unfold sanitizeMerges at hmr
    dsimp only at hmr
    split at hmr
    · exact ih mr hmr
    · rename_i rng heq
      split at hmr
      · exact ih mr hmr
      · split at hmr
        · exact ih mr hmr
        · rename_i hinv hdeg
          rcases List.mem_cons.mp hmr with he | hm
          · subst he
            refine ⟨?_, ?_, ?_, ?_, ?_⟩
            · simp only [MergeWf]; omega
            · simp only [MergeWf]; omega
            · simp only [MergeWf]; omega
            · simp only [MergeWf]; omega
            · intro hd
              have hd1 := hd.1
              have hd2 := hd.2
              simp only at hd1 hd2
              exact hdeg ⟨by omega, by omega⟩
          · exact ih mr hm

theorem reindexMergesRow_preserves_wf (l : List MergeRange) (i rows cols : Nat)
    (hwf : ∀ mo ∈ l, MergeWf rows cols mo) (hi : i < rows) :
    ∀ mr ∈ reindexMergesAfterRemoveRow l i, MergeWf (rows - 1) cols mr := by
  induction l with
  | nil => simp [reindexMergesAfterRemoveRow]
  | cons mo rest ih =>
    have hwf0 := hwf mo (by simp)
    have hwfr : ∀ mr ∈ rest, MergeWf rows cols mr := fun mr hm => hwf mr (by simp [hm])
    intro mr hmr
    obtain ⟨hw1, hw2, hw3, hw4, hw5⟩ := hwf0
    rw [reindexMergesRow_cons] at hmr
    by_cases hdrop : mo.sr ≤ i ∧ i ≤ mo.er
    · rw [if_pos hdrop] at hmr; exact ih hwfr mr hmr
    · rw [if_neg hdrop, if_pos (shiftMergeRow_ordered mo i hw1)] at hmr
      rcases List.mem_cons.mp hmr with he | hm
      · subst he
        unfold shiftMergeRow
        by_cases hlt : i < mo.sr
        · rw [if_pos hlt]
          refine ⟨by simp; omega, by simpa using hw2, by simp; omega, by simpa using hw4, ?_⟩
          intro hd
          have hd1 := hd.1
          have hd2 := hd.2
          simp only at hd1 hd2
          exact hw5 ⟨by omega, hd2⟩
        · rw [if_neg hlt]
          exact ⟨hw1, hw2, by omega, hw4, hw5⟩
      · exact ih hwfr mr hm

theorem shiftMergeCol_ordered (mo : MergeRange) (i : Nat) (h : mo.sc ≤ mo.ec) :
    (shiftMergeCol mo i).sc ≤ (shiftMergeCol mo i).ec := by
  unfold shiftMergeCol
  by_cases hlt : i < mo.sc
  · rw [if_pos hlt]; simp; omega
  · rw [if_neg hlt]; exact h

theorem reindexMergesCol_preserves_wf (l : List MergeRange) (i rows cols : Nat)
    (hwf : ∀ mo ∈ l, MergeWf rows cols mo) (hi : i < cols) :
    ∀ mr ∈ reindexMergesAfterRemoveCol l i, MergeWf rows (cols - 1) mr := by
  induction l with
  | nil => simp [reindexMergesAfterRemoveCol]
  | cons mo rest ih =>
    have hwf0 := hwf mo (by simp)
    have hwfr : ∀ mr ∈ rest, MergeWf rows cols mr := fun mr hm => hwf mr (by simp [hm])
    intro mr hmr
    obtain ⟨hw1, hw2, hw3, hw4, hw5⟩ := hwf0
    rw [reindexMergesCol_cons] at hmr
    by_cases hdrop : mo.sc ≤ i ∧ i ≤ mo.ec
    · rw [if_pos hdrop] at hmr; exact ih hwfr mr hmr
    · rw [if_neg hdrop, if_pos (shiftMergeCol_ordered mo i hw2)] at hmr
      rcases List.mem_cons.mp hmr with he | hm
      · subst he
        unfold shiftMergeCol
        by_cases hlt : i < mo.sc
        · rw [if_pos hlt]
          refine ⟨by simpa using hw1, by simp; omega, by simpa using hw3, by simp; omega, ?_⟩
          intro hd
          have hd1 := hd.1
          have hd2 := hd.2
          simp only at hd1 hd2
          exact hw5 ⟨hd1, by omega⟩
        · rw [if_neg hlt]
          exact ⟨hw1, hw2, hw3, by omega, hw5⟩
      · exact ih hwfr mr hm

/-- C10: with at least one row and one column, every range produced by merge
sanitization satisfies the merge invariant (ordered corners, in bounds, not
degenerate), and both reindexing operations invoked by removeRow and
removeColumn preserve the invariant at the reduced dimensions for every
valid removal index. -/
theorem merges_invariant_established_and_preserved
    (raw : List RawMerge) (l : List MergeRange) (i j rows cols : Nat)
    (hr : 1 ≤ rows) (hc : 1 ≤ cols)
    (hwf : ∀ mo ∈ l, MergeWf rows cols mo) (hir : i < rows) (hjc : j < cols) :
    (∀ mr ∈ sanitizeMerges raw rows cols, MergeWf rows cols mr) ∧
    (∀ mr ∈ reindexMergesAfterRemoveRow l i, MergeWf (rows - 1) cols mr) ∧
    (∀ mr ∈ reindexMergesAfterRemoveCol l j, MergeWf rows (cols - 1) mr) :=
  ⟨sanitizeMerges_wf raw rows cols hr hc,
    reindexMergesRow_preserves_wf l i rows cols hwf hir,
    reindexMergesCol_preserves_wf l j rows cols hwf hjc⟩

/-- Witness for the C10 theorem: a raw merge list with one string range, one
corner-object range and one malformed entry, sanitized for a 3 by 3 grid,
and the 1 by 2 merge of the sample model reindexed after removing row 2 and
column 2. -/
theorem merges_invariant_established_and_preserved_witness :
    (1 ≤ 3 ∧ 1 ≤ 3 ∧
      (∀ mo ∈ sampleState.model.mergedCells, MergeWf 3 3 mo) ∧ 2 < 3 ∧ 2 < 3) ∧
    ((∀ mr ∈ sanitizeMerges
        [RawMerge.str ['A', '1', ':', 'B', '2'], RawMerge.rng 4 4 0 0, RawMerge.invalid]
        3 3, MergeWf 3 3 mr) ∧
      (∀ mr ∈ reindexMergesAfterRemoveRow sampleState.model.mergedCells 2,
        MergeWf 2 3 mr) ∧
      (∀ mr ∈ reindexMergesAfterRemoveCol sampleState.model.mergedCells 2,
        MergeWf 3 2 mr)) :=
  ⟨⟨by decide, by decide, by decide, by decide, by decide⟩,
    merges_invariant_established_and_preserved
      [RawMerge.str ['A', '1', ':', 'B', '2'], RawMerge.rng 4 4 0 0, RawMerge.invalid]
      sampleState.model.mergedCells 2 2 3 3
      (by decide) (by decide) (by decide) (by decide) (by decide)⟩

/-! ## C8: column label codec -/

theorem char_digit_toNat (d : Nat) (h : d < 10) : (Char.ofNat (48 + d)).toNat = 48 + d := by
  interval_cases d <;> decide

theorem char_letter_toNat (d : Nat) (h : d < 26) : (Char.ofNat (65 + d)).toNat = 65 + d := by
  interval_cases d <;> decide

theorem natToCharsGo_fuel (fuel1 : Nat) : ∀ fuel2 n, n < fuel1 → n < fuel2 →
    natToCharsGo fuel1 n = natToCharsGo fuel2 n := by
  induction fuel1 with
  | zero => omega
  | succ f ih =>
    intro fuel2 n h1 h2
    cases fuel2 with
    | zero => omega
    | succ f2 =>
      simp only [natToCharsGo]
      by_cases h : n < 10
      · simp [h]
      · simp only [if_neg h]
        rw [ih f2 (n / 10) (by omega) (by omega)]

theorem natToChars_eq (n : Nat) :
    natToChars n = if n < 10 then [Char.ofNat (48 + n)]
      else natToChars (n / 10) ++ [Char.ofNat (48 + n % 10)] := by
  have step : natToChars n = if n < 10 then [Char.ofNat (48 + n)]
      else natToCharsGo n (n / 10) ++ [Char.ofNat (48 + n % 10)] := rfl
  rw [step]
  by_cases h : n < 10
  · simp [h]
  · simp only [if_neg h]
    congr 1
    exact natToCharsGo_fuel n (n / 10 + 1) (n / 10) (by omega) (by omega)

theorem natToChars_ne_nil (n : Nat) : natToChars n ≠ [] := by
  rw [natToChars_eq]; split <;> simp

theorem natToChars_digits (n : Nat) :
    ∀ ch ∈ natToChars n, 48 ≤ ch.toNat ∧ ch.toNat ≤ 57 := by
  induction n using Nat.strong_induction_on with
  | _ n ih =>
    intro ch hch
    rw [natToChars_eq] at hch
    split at hch
    · rename_i h
      simp only [List.mem_singleton] at hch
      subst hch
      rw [char_digit_toNat n h]
      omega
    · rename_i h
      rcases List.mem_append.mp hch with hm | hm
      · exact ih (n / 10) (Nat.div_lt_self (by omega) (by omega)) ch hm
      · simp only [List.mem_singleton] at hm
        subst hm
        rw [char_digit_toNat _ (Nat.mod_lt _ (by omega))]
        omega

theorem digits_fold (n : Nat) : ∀ a : Nat,
    List.foldl (fun x ch => x * 10 + (ch.toNat - 48)) a (natToChars n)
      = a * 10 ^ (natToChars n).length + n := by
  induction n using Nat.strong_induction_on with
  | _ n ih =>
    intro a
    rw [natToChars_eq]
    split
    · rename_i h
      simp only [List.foldl, List.length_singleton, pow_one]
      rw [char_digit_toNat n h]
      omega
    · rename_i h
      rw [List.foldl_append]
      rw [ih (n / 10) (Nat.div_lt_self (by omega) (by omega)) a]
      simp only [List.foldl, List.length_append, List.length_singleton]
      rw [char_digit_toNat _ (Nat.mod_lt _ (by omega))]
      rw [pow_succ]
      ring_nf
      omega

theorem digitsToNat_natToChars (n : Nat) : digitsToNat (natToChars n) = n := by
  have := digits_fold n 0
  simpa [digitsToNat] using this

theorem colIndexToLabelGo_fuel (fuel1 : Nat) : ∀ fuel2 index, index < fuel1 →
    index < fuel2 → colIndexToLabelGo fuel1 index = colIndexToLabelGo fuel2 index := by
  induction fuel1 with
  | zero => omega
  | succ f ih =>
    intro fuel2 index h1 h2
    cases fuel2 with
    | zero => omega
    | succ f2 =>
      simp only [colIndexToLabelGo]
      by_cases h : index / 26 = 0
      · simp [h]
      · simp only [if_neg h]
        rw [ih f2 (index / 26 - 1) (by omega) (by omega)]

theorem colIndexToLabel_eq (n : Nat) :
    colIndexToLabel n = if n / 26 = 0 then [Char.ofNat (65 + n % 26)]
      else colIndexToLabel (n / 26 - 1) ++ [Char.ofNat (65 + n % 26)] := by
  have step : colIndexToLabel n = if n / 26 = 0 then [Char.ofNat (65 + n % 26)]
      else colIndexToLabelGo n (n / 26 - 1) ++ [Char.ofNat (65 + n % 26)] := rfl
  rw [step]
  by_cases h : n / 26 = 0
  · simp [h]
  · simp only [if_neg h]
    congr 1
    exact colIndexToLabelGo_fuel n (n / 26 - 1 + 1) (n / 26 - 1) (by omega) (by omega)

theorem colIndexToLabel_ne_nil (n : Nat) : colIndexToLabel n ≠ [] := by
  rw [colIndexToLabel_eq]; split <;> simp

theorem colIndexToLabel_letters (n : Nat) :
    ∀ ch ∈ colIndexToLabel n, 65 ≤ ch.toNat ∧ ch.toNat ≤ 90 := by
  induction n using Nat.strong_induction_on with
  | _ n ih =>
    intro ch hch
    rw [colIndexToLabel_eq] at hch
    split at hch
    · simp only [List.mem_singleton] at hch
      subst hch
      rw [char_letter_toNat _ (Nat.mod_lt _ (by omega))]
      omega
    · rename_i h
      rcases List.mem_append.mp hch with hm | hm
      · exact ih (n / 26 - 1) (by omega) ch hm
      · simp only [List.mem_singleton] at hm
        subst hm
        rw [char_letter_toNat _ (Nat.mod_lt _ (by omega))]
        omega

theorem label_fold (n : Nat) : ∀ a : Int,
    List.foldl (fun x ch => x * 26 + ((ch.toNat : Int) - 64)) a (colIndexToLabel n)
      = a * 26 ^ (colIndexToLabel n).length + (n + 1) := by
  induction n using Nat.strong_induction_on with
  | _ n ih =>
    intro a
    rw [colIndexToLabel_eq]
    split
    · rename_i h
      simp only [List.foldl, List.length_singleton, pow_one]
      rw [char_letter_toNat _ (Nat.mod_lt _ (by omega))]
      have hn : n % 26 = n := by omega
      rw [hn]
      push_cast
      ring
    · rename_i h
      rw [List.foldl_append]
      rw [ih (n / 26 - 1) (by omega) a]
      simp only [List.foldl, List.length_append, List.length_singleton]
      rw [char_letter_toNat _ (Nat.mod_lt _ (by omega))]
      rw [pow_succ]
      have hsub : ((n / 26 - 1 : Nat) : Int) = ((n / 26 : Nat) : Int) - 1 := by omega
      rw [hsub]
      ring_nf
      omega

theorem dropWhile_eq_self_of {p : Char → Bool} (l : List Char)
    (h : ∀ ch ∈ l, p ch = false) : l.dropWhile p = l := by
  cases l with
  | nil => rfl
  | cons a l2 =>
    rw [List.dropWhile_cons_of_neg]
    simp [h a (by simp)]

theorem jsTrim_eq_self (l : List Char) (h : ∀ ch ∈ l, isJsSpace ch = false) :
    jsTrim l = l := by
  unfold jsTrim
  rw [dropWhile_eq_self_of l h,
    dropWhile_eq_self_of _ (fun ch hch => h ch (List.mem_reverse.mp hch)),
    List.reverse_reverse]

theorem map_upcase_eq_self (l : List Char) (h : ∀ ch ∈ l, ch.toNat ≤ 90) :
    l.map upcaseChar = l := by
  induction l with
  | nil => rfl
  | cons a l2 ih =>
    simp only [List.map_cons]
    rw [ih (fun ch hch => h ch (by simp [hch]))]
    have ha : upcaseChar a = a := by
      unfold upcaseChar
      rw [if_neg]
      have := h a (by simp)
      omega
    rw [ha]

theorem not_space_of_ge48 (ch : Char) (h : 48 ≤ ch.toNat) : isJsSpace ch = false := by
  simp only [isJsSpace, Bool.or_eq_false_iff, decide_eq_false_iff_not]
  omega

theorem colLabelToIndex_colIndexToLabel (n : Nat) :
    colLabelToIndex (colIndexToLabel n) = (n : Int) := by
  unfold colLabelToIndex
  have hlet := colIndexToLabel_letters n
  have htrim : jsTrim (colIndexToLabel n) = colIndexToLabel n :=
    jsTrim_eq_self _ (fun ch hch => not_space_of_ge48 ch (by have := hlet ch hch; omega))
  have hup : (colIndexToLabel n).map upcaseChar = colIndexToLabel n :=
    map_upcase_eq_self _ (fun ch hch => (hlet ch hch).2)
  dsimp only
  rw [htrim, hup, if_neg (colIndexToLabel_ne_nil n), label_fold n 0]
  simp

/-- C8: converting a zero-based column index to its letter label and back is
the identity for every n up to 1000 (the proof in fact works for every n),
and the label scheme is the bijective base-26 column-letter scheme with
0 mapped to A, 25 to Z and 26 to AA. -/
theorem addressCodec_label_roundtrip (n : Nat) (_h : n ≤ 1000) :
    colLabelToIndex (colIndexToLabel n) = (n : Int) ∧
    colIndexToLabel 0 = ['A'] ∧ colIndexToLabel 25 = ['Z'] ∧
    colIndexToLabel 26 = ['A', 'A'] :=
  ⟨colLabelToIndex_colIndexToLabel n, by decide, by decide, by decide⟩

/-- Witness for the C8 theorem at n = 1000. -/
theorem addressCodec_label_roundtrip_witness :
    1000 ≤ 1000 ∧
    (colLabelToIndex (colIndexToLabel 1000) = (1000 : Int) ∧
      colIndexToLabel 0 = ['A'] ∧ colIndexToLabel 25 = ['Z'] ∧
      colIndexToLabel 26 = ['A', 'A']) :=
  ⟨by decide, addressCodec_label_roundtrip 1000 (by decide)⟩

/-! ## C6: import alias precedence -/

/-- C6 (amended): alias precedence in the import style mapper is mixed. The
color and background concepts are read through JS or-chains, so the first
listed truthy alias wins (second and third conjuncts), but concepts handled
by successive assignments give the later assignment precedence: a truthy
hAlign overwrites textAlign (first conjunct), and bold true overwrites a
fontWeight string (fourth conjunct). -/
theorem mapStyle_alias_precedence (ta ha bg bc : String)
    (hta : ta ≠ "") (hha : ha ≠ "") (hbg : bg ≠ "") (hbc : bc ≠ "") :
    mapStyle (some { textAlign := some ta, hAlign := some ha })
      = some [("textAlign", ha)] ∧
    mapStyle (some { background := some bg, bgColor := some bc })
      = some [("background", bg)] ∧
    mapStyle (some { bgColor := some bc, backColor := some bg })
      = some [("background", bc)] ∧
    mapStyle (some { fontWeight := some "400", bold := some true })
      = some [("fontWeight", "bold")] := by
  refine ⟨?_, ?_, ?_, by decide⟩
  · simp [mapStyle, truthyS, firstTruthyS, jsSet, hta, hha]
  · simp [mapStyle, truthyS, firstTruthyS, jsSet, hbg, hbc]
  · simp [mapStyle, truthyS, firstTruthyS, jsSet, hbg, hbc]

/-- Witness for the amended C6 theorem at concrete alias values. -/
theorem mapStyle_alias_precedence_witness :
    (("left" : String) ≠ "" ∧ ("right" : String) ≠ "" ∧
      ("blue" : String) ≠ "" ∧ ("green" : String) ≠ "") ∧
    (mapStyle (some { textAlign := some "left", hAlign := some "right" })
        = some [("textAlign", "right")] ∧
      mapStyle (some { background := some "blue", bgColor := some "green" })
        = some [("background", "blue")] ∧
      mapStyle (some { bgColor := some "green", backColor := some "blue" })
        = some [("background", "green")] ∧
      mapStyle (some { fontWeight := some "400", bold := some true })
        = some [("fontWeight", "bold")]) :=
  ⟨⟨by decide, by decide, by decide, by decide⟩,
    mapStyle_alias_precedence "left" "right" "blue" "green"
      (by decide) (by decide) (by decide) (by decide)⟩

/-- C6 (counterexample): a record carrying both textAlign and hAlign maps to
the hAlign value, not the first-listed textAlign value, so first-match-wins
precedence in the listed alias order fails. -/
theorem mapStyle_hAlign_wins_over_textAlign :
    mapStyle (some { textAlign := some "left", hAlign := some "right" })
      = some [("textAlign", "right")] ∧ ("right" : String) ≠ "left" := by
  constructor
  · decide
  · decide

/-! ## C2: row styles and per-cell propagation -/

/-- C2 (counterexample): on a fresh 2 by 2 grid, setting a row style with
setRowStyle does not create per-cell overrides; both getCellStyle reads of
row 1 return null, not the claimed override. -/
theorem setRowStyle_does_not_write_cellStyles :
    getCellStyle (setRowStyle (createEmptyModel 2 2) 1
        (some [("fontWeight", some "bold")])) 1 0 = none ∧
    getCellStyle (setRowStyle (createEmptyModel 2 2) 1
        (some [("fontWeight", some "bold")])) 1 1 = none := by
  decide

/-- C2 (amended): row-to-cell propagation happens through the
selection-based style application, not through setRowStyle. Applying the
patch fontWeight bold through applyStyleToSelection with a row selected on a
2-column grid with no pre-existing cell overrides stores the override
fontWeight bold in each of the two cells of that row, and getCellStyle
returns it for both. -/
theorem applyRowStyle_propagates_to_cells (st : EngineState) (r : Nat)
    (hsel : st.selection = some (.row r))
    (hr : (r : Int) < st.model.rows)
    (hcols : st.model.cols = 2)
    (hempty : st.model.cellStyles = []) :
    getCellStyle (applyStyleToSelection st
        (.patch [("fontWeight", some "bold")])).model r 0
      = some [("fontWeight", "bold")] ∧
    getCellStyle (applyStyleToSelection st
        (.patch [("fontWeight", some "bold")])).model r 1
      = some [("fontWeight", "bold")] := by
  obtain ⟨m, dflt, sel⟩ := st
  dsimp only at hsel hr hcols hempty ⊢
  subst hsel
  have hrange : List.range (colsNat m) = [0, 1] := by
    rw [colsNat, hcols]; rfl
  simp only [applyStyleToSelection, hrange, List.foldl_cons, List.foldl_nil, hempty]
  have hdel : jsDelete [("fontWeight", some "bold")] "width"
      = [("fontWeight", some "bold")] := rfl
  have happly : applyPatchEntries [] [("fontWeight", some "bold")]
      = [("fontWeight", "bold")] := rfl
  have hsan : sanitizeStyle (some (toRaw [("fontWeight", "bold")]))
      = some [("fontWeight", "bold")] := rfl
  have hrows : ¬ m.rows ≤ (r : Int) := by omega
  simp only [hdel, jsGet, Option.getD_none, happly, hsan, jsSet, Prod.mk.injEq]
  norm_num
  have hloop : sanitizeLoop (toRaw [("fontWeight", "bold")]) [] 0
      = [("fontWeight", "bold")] := rfl
  simp [happly, hsan, hloop, setRowStyle, getCellStyle, hrows, hcols, jsGet, Prod.mk.injEq]

/-- Engine state used as the C2 witness: a fresh 2 by 2 grid with row 1
selected. -/
def rowSelState : EngineState :=
  { model := createEmptyModel 2 2, defaultCellStyle := none, selection := some (.row 1) }

/-- Witness for the amended C2 theorem on the fresh 2 by 2 grid with row 1
selected. -/
theorem applyRowStyle_propagates_to_cells_witness :
    (rowSelState.selection = some (.row 1) ∧
      ((1 : Nat) : Int) < rowSelState.model.rows ∧
      rowSelState.model.cols = 2 ∧ rowSelState.model.cellStyles = []) ∧
    (getCellStyle (applyStyleToSelection rowSelState
        (.patch [("fontWeight", some "bold")])).model 1 0
      = some [("fontWeight", "bold")] ∧
    getCellStyle (applyStyleToSelection rowSelState
        (.patch [("fontWeight", some "bold")])).model 1 1
      = some [("fontWeight", "bold")]) :=
  ⟨⟨by decide, by decide, by decide, by decide⟩,
    applyRowStyle_propagates_to_cells rowSelState 1
      (by decide) (by decide) (by decide) (by decide)⟩

/-! ## C1: round trip through the spreadsheet codec

The next block builds the A1 parsing facts needed to relate the export of
addresses and merge ranges to their re-parsing on import. -/

theorem takeWhile_append_all {p : Char → Bool} (l1 l2 : List Char)
    (h : ∀ ch ∈ l1, p ch = true) :
    (l1 ++ l2).takeWhile p = l1 ++ l2.takeWhile p := by
  induction l1 with
  | nil => simp
  | cons a t ih =>
    simp only [List.cons_append, List.takeWhile_cons, h a (by simp)]
    simp [ih (fun ch hch => h ch (by simp [hch]))]

theorem dropWhile_append_all {p : Char → Bool} (l1 l2 : List Char)
    (h : ∀ ch ∈ l1, p ch = true) :
    (l1 ++ l2).dropWhile p = l2.dropWhile p := by
  induction l1 with
  | nil => simp
  | cons a t ih =>
    simp only [List.cons_append, List.dropWhile_cons, h a (by simp)]
    simp [ih (fun ch hch => h ch (by simp [hch]))]

theorem takeWhile_all {p : Char → Bool} (l : List Char) (h : ∀ ch ∈ l, p ch = true) :
    l.takeWhile p = l := by
  induction l with
  | nil => simp
  | cons a t ih =>
    simp only [List.takeWhile_cons, h a (by simp)]
    simp [ih (fun ch hch => h ch (by simp [hch]))]

theorem dropWhile_all {p : Char → Bool} (l : List Char) (h : ∀ ch ∈ l, p ch = true) :
    l.dropWhile p = [] := by
  induction l with
  | nil => simp
  | cons a t ih =>
    simp only [List.dropWhile_cons, h a (by simp)]
    simp [ih (fun ch hch => h ch (by simp [hch]))]

theorem letter_class (ch : Char) (h1 : 65 ≤ ch.toNat) (h2 : ch.toNat ≤ 90) :
    isAsciiLetter ch = true ∧ isAsciiDigit ch = false ∧ isJsSpace ch = false ∧ ch ≠ ':' := by
  refine ⟨?_, ?_, ?_, ?_⟩
  · simp [isAsciiLetter]
    omega
  · rw [Bool.eq_false_iff]
    intro hcontra
    simp [isAsciiDigit] at hcontra
    omega
  · exact not_space_of_ge48 ch (by omega)
  · intro he
    rw [he] at h1
    have hco : (':' : Char).toNat = 58 := rfl
    omega

theorem digit_class (ch : Char) (h1 : 48 ≤ ch.toNat) (h2 : ch.toNat ≤ 57) :
    isAsciiDigit ch = true ∧ isAsciiLetter ch = false ∧ isJsSpace ch = false ∧ ch ≠ ':' := by
  refine ⟨?_, ?_, ?_, ?_⟩
  · simp [isAsciiDigit]
    omega
  · rw [Bool.eq_false_iff]
    intro hcontra
    simp [isAsciiLetter] at hcontra
    omega
  · exact not_space_of_ge48 ch h1
  · intro he
    rw [he] at h2
    have hco : (':' : Char).toNat = 58 := rfl
    omega

theorem parseA1_label (r c : Nat) :
    parseA1 (colIndexToLabel c ++ natToChars (r + 1)) = some ((r : Int), (c : Int)) := by
  have hlet := colIndexToLabel_letters c
  have hdig := natToChars_digits (r + 1)
  have hletter : ∀ ch ∈ colIndexToLabel c, isAsciiLetter ch = true :=
    fun ch hch => (letter_class ch (hlet ch hch).1 (hlet ch hch).2).1
  have hdigit : ∀ ch ∈ natToChars (r + 1), isAsciiDigit ch = true :=
    fun ch hch => (digit_class ch (hdig ch hch).1 (hdig ch hch).2).1
  have hdignl : ∀ ch ∈ natToChars (r + 1), isAsciiLetter ch = false :=
    fun ch hch => (digit_class ch (hdig ch hch).1 (hdig ch hch).2).2.1
  have htrim : jsTrim (colIndexToLabel c ++ natToChars (r + 1))
      = colIndexToLabel c ++ natToChars (r + 1) := by
    apply jsTrim_eq_self
    intro ch hch
    rcases List.mem_append.mp hch with hm | hm
    · exact (letter_class ch (hlet ch hm).1 (hlet ch hm).2).2.2.1
    · exact (digit_class ch (hdig ch hm).1 (hdig ch hm).2).2.2.1
  have hnl : (natToChars (r + 1)).takeWhile isAsciiLetter = [] := by
    cases hn : natToChars (r + 1) with
    | nil => simp
    | cons a t =>
      simp only [List.takeWhile_cons]
      rw [hdignl a (by rw [hn]; simp)]
      simp
  have hnd : (natToChars (r + 1)).dropWhile isAsciiLetter = natToChars (r + 1) := by
    cases hn : natToChars (r + 1) with
    | nil => simp
    | cons a t =>
      simp only [List.dropWhile_cons]
      rw [hdignl a (by rw [hn]; simp)]
      simp
  have htake : (colIndexToLabel c ++ natToChars (r + 1)).takeWhile isAsciiLetter
      = colIndexToLabel c := by
    rw [takeWhile_append_all _ _ hletter, hnl, List.append_nil]
  have hdrop : (colIndexToLabel c ++ natToChars (r + 1)).dropWhile isAsciiLetter
      = natToChars (r + 1) := by
    rw [dropWhile_append_all _ _ hletter, hnd]
  unfold parseA1
  dsimp only
  rw [htrim, htake, hdrop]
  rw [takeWhile_all _ hdigit, dropWhile_all _ hdigit]
  have hcond : ¬(colIndexToLabel c = [] ∨ natToChars (r + 1) = [] ∨
      ([] : List Char) ≠ []) := by
    push_neg
    exact ⟨colIndexToLabel_ne_nil c, natToChars_ne_nil (r + 1), rfl⟩
  rw [if_neg hcond, digitsToNat_natToChars, colLabelToIndex_colIndexToLabel]
  have hcast : ((r + 1 : Nat) : Int) - 1 = (r : Int) := by push_cast; ring
  rw [hcast]

/-- Coordinates encoded into the exported activeCell label. -/
def selCoords : Option Sel → Int × Int
  | some (.cell r c) => ((r : Int), (c : Int))
  | some (.col c) => (0, (c : Int))
  | some (.row r) => ((r : Int), 0)
  | none => (0, 0)

theorem activeCellLabel_form (sel : Option Sel) :
    activeCellLabel sel
      = colIndexToLabel (selCoords sel).2.toNat ++
        natToChars ((selCoords sel).1.toNat + 1) := by
  match sel with
  | some (.cell r c) => simp [activeCellLabel, selCoords]
  | some (.col c) =>
    simp only [activeCellLabel, selCoords, Int.toNat_ofNat, Int.toNat_zero]
    congr 1
  | some (.row r) =>
    simp only [activeCellLabel, selCoords, Int.toNat_ofNat, Int.toNat_zero]
    rw [show colIndexToLabel 0 = ['A'] from by decide]
    rfl
  | none =>
    simp only [activeCellLabel, selCoords, Int.toNat_zero]
    decide

theorem parseA1_activeCellLabel (sel : Option Sel) :
    parseA1 (activeCellLabel sel)
      = some (((selCoords sel).1.toNat : Int), ((selCoords sel).2.toNat : Int)) := by
  rw [activeCellLabel_form sel]
  exact parseA1_label _ _

theorem splitOnColon_no_colon (l : List Char) (h : ∀ ch ∈ l, ch ≠ ':') :
    splitOnColon l = [l] := by
  induction l with
  | nil => rfl
  | cons a t ih =>
    have ha : ¬ a = ':' := h a (by simp)
    simp only [splitOnColon, if_neg ha, ih (fun ch hch => h ch (by simp [hch]))]

theorem splitOnColon_append (a b : List Char) (ha : ∀ ch ∈ a, ch ≠ ':')
    (hb : ∀ ch ∈ b, ch ≠ ':') :
    splitOnColon (a ++ ':' :: b) = [a, b] := by
  induction a with
  | nil =>
    show splitOnColon (':' :: b) = [[], b]
    simp only [splitOnColon, if_pos rfl, splitOnColon_no_colon b hb]
    simp
  | cons x t ih =>
    have hx : ¬ x = ':' := ha x (by simp)
    simp only [List.cons_append, splitOnColon, if_neg hx]
    have ih2 : splitOnColon (t.append (':' :: b)) = [t, b] :=
      ih (fun ch hch => ha ch (by simp [hch]))
    rw [ih2]

theorem no_colon_label_digits (c r : Nat) :
    ∀ ch ∈ colIndexToLabel c ++ natToChars (r + 1), ch ≠ ':' := by
  intro ch hch
  rcases List.mem_append.mp hch with hm | hm
  · have := colIndexToLabel_letters c ch hm
    exact (letter_class ch this.1 this.2).2.2.2
  · have := natToChars_digits (r + 1) ch hm
    exact (digit_class ch this.1 this.2).2.2.2

theorem parseA1Range_rangeToA1 (mr : MergeRange) (h1 : mr.sr ≤ mr.er)
    (h2 : mr.sc ≤ mr.ec) :
    parseA1Range (rangeToA1 (mr.sr, mr.sc) (mr.er, mr.ec))
      = some ⟨(mr.sr : Int), (mr.sc : Int), (mr.er : Int), (mr.ec : Int)⟩ := by
  have hform : rangeToA1 (mr.sr, mr.sc) (mr.er, mr.ec)
      = (colIndexToLabel mr.sc ++ natToChars (mr.sr + 1)) ++
        ':' :: (colIndexToLabel mr.ec ++ natToChars (mr.er + 1)) := by
    unfold rangeToA1
    dsimp only
    rw [min_eq_left h1, max_eq_right h1, min_eq_left h2, max_eq_right h2,
      List.append_assoc]
  rw [hform]
  unfold parseA1Range
  rw [splitOnColon_append _ _ (no_colon_label_digits mr.sc mr.sr)
    (no_colon_label_digits mr.ec mr.er)]
  dsimp only
  rw [parseA1_label mr.sr mr.sc, parseA1_label mr.er mr.ec]

theorem splitOnColon_single_label (sel : Option Sel) :
    splitOnColon (activeCellLabel sel) = [activeCellLabel sel] := by
  apply splitOnColon_no_colon
  intro ch hch
  rw [activeCellLabel_form sel] at hch
  exact no_colon_label_digits _ _ ch hch

theorem parseA1Range_activeCellLabel (sel : Option Sel) :
    parseA1Range (activeCellLabel sel)
      = some ⟨((selCoords sel).1.toNat : Int), ((selCoords sel).2.toNat : Int),
          ((selCoords sel).1.toNat : Int), ((selCoords sel).2.toNat : Int)⟩ := by
  unfold parseA1Range
  rw [splitOnColon_single_label sel]
  dsimp only
  rw [parseA1_activeCellLabel sel]
  rfl

/-! ### Dimension-inference bounds -/

theorem dimsCellFold_cons (cell : SheetCell) (cells : List SheetCell) (acc : Int × Int) :
    dimsCellFold (cell :: cells) acc
      = dimsCellFold cells
          (match cell.idx with
           | some ci => (acc.1, max acc.2 ci)
           | none => acc) := rfl

theorem dimsCellFold_fst (cells : List SheetCell) :
    ∀ acc : Int × Int, (dimsCellFold cells acc).1 = acc.1 := by
  induction cells with
  | nil => intro acc; rfl
  | cons cell rest ih =>
    intro acc
    rw [dimsCellFold_cons]
    cases h : cell.idx
    · simp only [h]
      exact ih acc
    · simp only [h]
      exact ih _

theorem dimsCellFold_snd_ge (cells : List SheetCell) :
    ∀ acc : Int × Int, acc.2 ≤ (dimsCellFold cells acc).2 := by
  induction cells with
  | nil => intro acc; exact le_refl _
  | cons cell rest ih =>
    intro acc
    rw [dimsCellFold_cons]
    cases h : cell.idx with
    | none => simp only [h]; exact ih acc
    | some ci =>
      simp only [h]
      exact le_trans (le_max_left _ _) (ih _)

theorem dimsCellFold_snd_le (cells : List SheetCell) (C : Int) :
    ∀ acc : Int × Int,
      (∀ cell ∈ cells, ∀ ci, cell.idx = some ci → ci ≤ C) → acc.2 ≤ C →
      (dimsCellFold cells acc).2 ≤ C := by
  induction cells with
  | nil => intro acc _ h0; exact h0
  | cons cell rest ih =>
    intro acc h h0
    rw [dimsCellFold_cons]
    cases hidx : cell.idx with
    | none =>
      simp only [hidx]
      exact ih acc (fun c hc => h c (by simp [hc])) h0
    | some ci =>
      simp only [hidx]
      refine ih _ (fun c hc => h c (by simp [hc])) ?_
      have := h cell (by simp) ci hidx
      simp only [max_le_iff]
      exact ⟨h0, this⟩

theorem dimsCellFold_cell_le (cells : List SheetCell) :
    ∀ acc : Int × Int, ∀ cell ∈ cells, ∀ ci, cell.idx = some ci →
      ci ≤ (dimsCellFold cells acc).2 := by
  induction cells with
  | nil => intro acc cell hc; simp at hc
  | cons cell0 rest ih =>
    intro acc cell hc ci hidx
    rw [dimsCellFold_cons]
    rcases List.mem_cons.mp hc with he | hm
    · subst he
      rw [hidx]
      exact le_trans (le_max_right _ _) (dimsCellFold_snd_ge rest _)
    · cases h0 : cell0.idx with
      | none => simp only [h0]; exact ih acc cell hm ci hidx
      | some ci0 => simp only [h0]; exact ih _ cell hm ci hidx

theorem dimsFromRows_cons (row : SheetRow) (rows : List SheetRow) (mrc : Int × Int) :
    dimsFromRows (row :: rows) mrc
      = dimsFromRows rows
          (dimsCellFold row.cells
            (match row.index with
             | some ri => (max mrc.1 ri, mrc.2)
             | none => mrc)) := rfl

theorem dimsFromRows_ge (rows : List SheetRow) :
    ∀ mrc : Int × Int, mrc.1 ≤ (dimsFromRows rows mrc).1 ∧
      mrc.2 ≤ (dimsFromRows rows mrc).2 := by
  induction rows with
  | nil => intro mrc; exact ⟨le_refl _, le_refl _⟩
  | cons row rest ih =>
    intro mrc
    rw [dimsFromRows_cons]
    have step : mrc.1 ≤ (dimsCellFold row.cells
        (match row.index with
         | some ri => (max mrc.1 ri, mrc.2)
         | none => mrc)).1 ∧
        mrc.2 ≤ (dimsCellFold row.cells
        (match row.index with
         | some ri => (max mrc.1 ri, mrc.2)
         | none => mrc)).2 := by
      cases hidx : row.index with
      | none =>
        simp only [hidx]
        rw [dimsCellFold_fst]
        exact ⟨le_refl _, dimsCellFold_snd_ge _ _⟩
      | some ri =>
        simp only [hidx]
        rw [dimsCellFold_fst]
        constructor
        · exact le_max_left _ _
        · exact dimsCellFold_snd_ge _ _
    exact ⟨le_trans step.1 (ih _).1, le_trans step.2 (ih _).2⟩

theorem dimsFromRows_le (rows : List SheetRow) (R C : Int) :
    ∀ mrc : Int × Int,
      (∀ row ∈ rows, ∀ ri, row.index = some ri → ri ≤ R) →
      (∀ row ∈ rows, ∀ cell ∈ row.cells, ∀ ci, cell.idx = some ci → ci ≤ C) →
      mrc.1 ≤ R → mrc.2 ≤ C →
      (dimsFromRows rows mrc).1 ≤ R ∧ (dimsFromRows rows mrc).2 ≤ C := by
  induction rows with
  | nil => intro mrc _ _ h1 h2; exact ⟨h1, h2⟩
  | cons row rest ih =>
    intro mrc hrow hcell h1 h2
    rw [dimsFromRows_cons]
    have hstep1 : (dimsCellFold row.cells
        (match row.index with
         | some ri => (max mrc.1 ri, mrc.2)
         | none => mrc)).1 ≤ R := by
      rw [dimsCellFold_fst]
      cases hidx : row.index with
      | none => simpa using h1
      | some ri =>
        simp only [hidx, max_le_iff]
        exact ⟨h1, hrow row (by simp) ri hidx⟩
    have hstep2 : (dimsCellFold row.cells
        (match row.index with
         | some ri => (max mrc.1 ri, mrc.2)
         | none => mrc)).2 ≤ C := by
      apply dimsCellFold_snd_le _ _ _ (fun c hc => hcell row (by simp) c hc)
      cases hidx : row.index with
      | none => simpa using h2
      | some ri => simpa [hidx] using h2
    exact ih _ (fun r2 h2m => hrow r2 (by simp [h2m]))
      (fun r2 h2m => hcell r2 (by simp [h2m])) hstep1 hstep2

theorem dimsFromRows_row_le (rows : List SheetRow) :
    ∀ mrc : Int × Int, ∀ row ∈ rows, ∀ ri, row.index = some ri →
      ri ≤ (dimsFromRows rows mrc).1 := by
  induction rows with
  | nil => intro mrc row hm; simp at hm
  | cons row0 rest ih =>
    intro mrc row hm ri hidx
    rw [dimsFromRows_cons]
    rcases List.mem_cons.mp hm with he | hm2
    · subst he
      have base : ri ≤ (dimsCellFold row.cells (max mrc.1 ri, mrc.2)).1 := by
        rw [dimsCellFold_fst]
        exact le_max_right _ _
      rw [hidx]
      exact le_trans base (dimsFromRows_ge rest _).1
    · exact ih _ row hm2 ri hidx

theorem dimsFromRows_cell_le (rows : List SheetRow) :
    ∀ mrc : Int × Int, ∀ row ∈ rows, ∀ cell ∈ row.cells, ∀ ci, cell.idx = some ci →
      ci ≤ (dimsFromRows rows mrc).2 := by
  induction rows with
  | nil => intro mrc row hm; simp at hm
  | cons row0 rest ih =>
    intro mrc row hm cell hc ci hidx
    rw [dimsFromRows_cons]
    rcases List.mem_cons.mp hm with he | hm2
    · subst he
      exact le_trans (dimsCellFold_cell_le row.cells _ cell hc ci hidx)
        (dimsFromRows_ge rest _).2
    · exact ih _ row hm2 cell hc ci hidx

/-! ### Merge-scan characterization -/

theorem mergeScan_fold_parsed (ml : List MergeRange)
    (hwf : ∀ mr ∈ ml, mr.sr ≤ mr.er ∧ mr.sc ≤ mr.ec) :
    ∀ (mrc : Int × Int) (acc : List RawA1Range),
      ((ml.map (fun mr => rangeToA1 (mr.sr, mr.sc) (mr.er, mr.ec))).foldl
          mergeScan (mrc, acc)).2
        = acc ++ ml.map (fun mr =>
            (⟨(mr.sr : Int), (mr.sc : Int), (mr.er : Int), (mr.ec : Int)⟩ : RawA1Range)) := by
  induction ml with
  | nil => intro mrc acc; simp
  | cons mr rest ih =>
    intro mrc acc
    have hw := hwf mr (by simp)
    have hwr : ∀ mr2 ∈ rest, mr2.sr ≤ mr2.er ∧ mr2.sc ≤ mr2.ec :=
      fun mr2 hm => hwf mr2 (by simp [hm])
    simp only [List.map_cons, List.foldl_cons]
    have hstep : mergeScan (mrc, acc) (rangeToA1 (mr.sr, mr.sc) (mr.er, mr.ec))
        = ((max mrc.1 (mr.er : Int), max mrc.2 (mr.ec : Int)),
            acc ++ [⟨(mr.sr : Int), (mr.sc : Int), (mr.er : Int), (mr.ec : Int)⟩]) := by
      unfold mergeScan bumpRange
      rw [parseA1Range_rangeToA1 mr hw.1 hw.2]
    rw [hstep, ih hwr]
    simp

theorem mergeScan_fold_ge (ml : List MergeRange)
    (hwf : ∀ mr ∈ ml, mr.sr ≤ mr.er ∧ mr.sc ≤ mr.ec) :
    ∀ (mrc : Int × Int) (acc : List RawA1Range),
      mrc.1 ≤ ((ml.map (fun mr => rangeToA1 (mr.sr, mr.sc) (mr.er, mr.ec))).foldl
          mergeScan (mrc, acc)).1.1 ∧
      mrc.2 ≤ ((ml.map (fun mr => rangeToA1 (mr.sr, mr.sc) (mr.er, mr.ec))).foldl
          mergeScan (mrc, acc)).1.2 := by
  induction ml with
  | nil => intro mrc acc; exact ⟨le_refl _, le_refl _⟩
  | cons mr rest ih =>
    intro mrc acc
    have hw := hwf mr (by simp)
    have hwr : ∀ mr2 ∈ rest, mr2.sr ≤ mr2.er ∧ mr2.sc ≤ mr2.ec :=
      fun mr2 hm => hwf mr2 (by simp [hm])
    simp only [List.map_cons, List.foldl_cons]
    have hstep : mergeScan (mrc, acc) (rangeToA1 (mr.sr, mr.sc) (mr.er, mr.ec))
        = ((max mrc.1 (mr.er : Int), max mrc.2 (mr.ec : Int)),
            acc ++ [⟨(mr.sr : Int), (mr.sc : Int), (mr.er : Int), (mr.ec : Int)⟩]) := by
      unfold mergeScan bumpRange
      rw [parseA1Range_rangeToA1 mr hw.1 hw.2]
    rw [hstep]
    have := ih hwr (max mrc.1 (mr.er : Int), max mrc.2 (mr.ec : Int))
      (acc ++ [⟨(mr.sr : Int), (mr.sc : Int), (mr.er : Int), (mr.ec : Int)⟩])
    exact ⟨le_trans (le_max_left _ _) this.1, le_trans (le_max_left _ _) this.2⟩

theorem mergeScan_fold_mr_le (ml : List MergeRange)
    (hwf : ∀ mr ∈ ml, mr.sr ≤ mr.er ∧ mr.sc ≤ mr.ec) :
    ∀ (mrc : Int × Int) (acc : List RawA1Range), ∀ mr ∈ ml,
      ((mr.er : Int) ≤ ((ml.map (fun mr2 => rangeToA1 (mr2.sr, mr2.sc) (mr2.er, mr2.ec))).foldl
          mergeScan (mrc, acc)).1.1 ∧
       (mr.ec : Int) ≤ ((ml.map (fun mr2 => rangeToA1 (mr2.sr, mr2.sc) (mr2.er, mr2.ec))).foldl
          mergeScan (mrc, acc)).1.2) := by
  induction ml with
  | nil => intro mrc acc mr hm; simp at hm
  | cons mr0 rest ih =>
    intro mrc acc mr hm
    have hw := hwf mr0 (by simp)
    have hwr : ∀ mr2 ∈ rest, mr2.sr ≤ mr2.er ∧ mr2.sc ≤ mr2.ec :=
      fun mr2 hm2 => hwf mr2 (by simp [hm2])
    simp only [List.map_cons, List.foldl_cons]
    have hstep : mergeScan (mrc, acc) (rangeToA1 (mr0.sr, mr0.sc) (mr0.er, mr0.ec))
        = ((max mrc.1 (mr0.er : Int), max mrc.2 (mr0.ec : Int)),
            acc ++ [⟨(mr0.sr : Int), (mr0.sc : Int), (mr0.er : Int), (mr0.ec : Int)⟩]) := by
      unfold mergeScan bumpRange
      rw [parseA1Range_rangeToA1 mr0 hw.1 hw.2]
    rw [hstep]
    rcases List.mem_cons.mp hm with he | hm2
    · subst he
      have := mergeScan_fold_ge rest hwr
        (max mrc.1 (mr.er : Int), max mrc.2 (mr.ec : Int))
        (acc ++ [⟨(mr.sr : Int), (mr.sc : Int), (mr.er : Int), (mr.ec : Int)⟩])
      exact ⟨le_trans (le_max_right _ _) this.1, le_trans (le_max_right _ _) this.2⟩
    · exact ih hwr _ _ mr hm2

theorem mergeScan_fold_le (ml : List MergeRange)
    (hwf : ∀ mr ∈ ml, mr.sr ≤ mr.er ∧ mr.sc ≤ mr.ec) (R C : Int) :
    ∀ (mrc : Int × Int) (acc : List RawA1Range),
      mrc.1 ≤ R → mrc.2 ≤ C →
      (∀ mr ∈ ml, (mr.er : Int) ≤ R ∧ (mr.ec : Int) ≤ C) →
      ((ml.map (fun mr => rangeToA1 (mr.sr, mr.sc) (mr.er, mr.ec))).foldl
          mergeScan (mrc, acc)).1.1 ≤ R ∧
      ((ml.map (fun mr => rangeToA1 (mr.sr, mr.sc) (mr.er, mr.ec))).foldl
          mergeScan (mrc, acc)).1.2 ≤ C := by
  induction ml with
  | nil => intro mrc acc h1 h2 _; exact ⟨h1, h2⟩
  | cons mr rest ih =>
    intro mrc acc h1 h2 hml
    have hw := hwf mr (by simp)
    have hwr : ∀ mr2 ∈ rest, mr2.sr ≤ mr2.er ∧ mr2.sc ≤ mr2.ec :=
      fun mr2 hm => hwf mr2 (by simp [hm])
    simp only [List.map_cons, List.foldl_cons]
    have hstep : mergeScan (mrc, acc) (rangeToA1 (mr.sr, mr.sc) (mr.er, mr.ec))
        = ((max mrc.1 (mr.er : Int), max mrc.2 (mr.ec : Int)),
            acc ++ [⟨(mr.sr : Int), (mr.sc : Int), (mr.er : Int), (mr.ec : Int)⟩]) := by
      unfold mergeScan bumpRange
      rw [parseA1Range_rangeToA1 mr hw.1 hw.2]
    rw [hstep]
    refine ih hwr _ _ ?_ ?_ (fun mr2 hm => hml mr2 (by simp [hm]))
    · simp only [max_le_iff]
      exact ⟨h1, (hml mr (by simp)).1⟩
    · simp only [max_le_iff]
      exact ⟨h2, (hml mr (by simp)).2⟩

/-! ### Sanitization is the identity on well-formed merge objects -/

theorem sanitizeMerges_exact (ml : List MergeRange) (rows cols : Nat)
    (h : ∀ mr ∈ ml, mr.sr ≤ mr.er ∧ mr.sc ≤ mr.ec ∧ mr.er < rows ∧ mr.ec < cols ∧
      ¬(mr.sr = mr.er ∧ mr.sc = mr.ec)) :
    sanitizeMerges (ml.map (fun mr =>
      RawMerge.rng (mr.sr : Int) (mr.sc : Int) (mr.er : Int) (mr.ec : Int))) rows cols
      = ml := by
  induction ml with
  | nil => rfl
  | cons mr rest ih =>
    obtain ⟨hw1, hw2, hw3, hw4, hw5⟩ := h mr (by simp)
    have hrest := ih (fun mr2 hm => h mr2 (by simp [hm]))
    simp only [List.map_cons]
    unfold sanitizeMerges
    dsimp only
    have e1 : max 0 (min ((mr.sr : Int)) ((mr.er : Int))) ⊓ ((rows : Int) - 1)
        = (mr.sr : Int) := by omega
    have e2 : max 0 (max ((mr.sr : Int)) ((mr.er : Int))) ⊓ ((rows : Int) - 1)
        = (mr.er : Int) := by omega
    have e3 : max 0 (min ((mr.sc : Int)) ((mr.ec : Int))) ⊓ ((cols : Int) - 1)
        = (mr.sc : Int) := by omega
    have e4 : max 0 (max ((mr.sc : Int)) ((mr.ec : Int))) ⊓ ((cols : Int) - 1)
        = (mr.ec : Int) := by omega
    rw [e1, e2, e3, e4]
    rw [if_neg (by omega)]
    rw [if_neg (by
      intro hd
      exact hw5 ⟨by omega, by omega⟩)]
    rw [hrest]
    congr 1

/-! ### Grid read and write lemmas -/

/-- Read grid[r][c] with the empty-string default at both levels. -/
def getGrid (g : List (List String)) (r c : Nat) : String :=
  (g.getD r []).getD c ""

theorem getData_eq_getGrid (m : Model) (r c : Nat) :
    getData m r c = getGrid m.data r c := rfl

theorem getD_set_self {α : Type} (l : List α) (i : Nat) (v d : α) (h : i < l.length) :
    (l.set i v).getD i d = v := by
  induction l generalizing i with
  | nil => simp at h
  | cons a t ih =>
    cases i with
    | zero => rfl
    | succ j =>
      simp only [List.set_cons_succ, List.getD_cons_succ]
      exact ih j (by simpa using h)

theorem getD_set_ne {α : Type} (l : List α) (i j : Nat) (v d : α) (h : i ≠ j) :
    (l.set i v).getD j d = l.getD j d := by
  induction l generalizing i j with
  | nil => simp [List.set]
  | cons a t ih =>
    cases i with
    | zero =>
      cases j with
      | zero => exact absurd rfl h
      | succ j2 => rfl
    | succ i2 =>
      cases j with
      | zero => rfl
      | succ j2 =>
        simp only [List.set_cons_succ, List.getD_cons_succ]
        exact ih i2 j2 (by omega)

theorem set_oob {α : Type} (l : List α) (i : Nat) (v : α) (h : l.length ≤ i) :
    l.set i v = l := by
  induction l generalizing i with
  | nil => rfl
  | cons a t ih =>
    cases i with
    | zero => simp at h
    | succ j =>
      simp only [List.set_cons_succ]
      rw [ih j (by simpa using h)]

theorem getD_replicate {α : Type} (n i : Nat) (x d : α) :
    (List.replicate n x).getD i d = if i < n then x else d := by
  induction n generalizing i with
  | zero => simp
  | succ k ih =>
    cases i with
    | zero => simp [List.replicate]
    | succ j =>
      simp only [List.replicate, List.getD_cons_succ, ih j]
      by_cases h : j < k
      · rw [if_pos h, if_pos (by omega)]
      · rw [if_neg h, if_neg (by omega)]

theorem set2d_length (g : List (List String)) (ri ci : Int) (v : String) :
    (set2d g ri ci v).length = g.length := by
  unfold set2d
  split
  · exact List.length_set _ _ _
  · rfl

theorem set2d_rowlen (g : List (List String)) (ri ci : Int) (v : String) (r : Nat) :
    ((set2d g ri ci v).getD r []).length = (g.getD r []).length := by
  unfold set2d
  split
  · by_cases hr : ri.toNat = r
    · subst hr
      by_cases hin : ri.toNat < g.length
      · rw [getD_set_self _ _ _ _ hin]
        exact List.length_set _ _ _
      · rw [set_oob _ _ _ (by omega)]
    · rw [getD_set_ne _ _ _ _ _ hr]
  · rfl

theorem getGrid_set2d_other (g : List (List String)) (ri ci : Int) (v : String)
    (r c : Nat) (h : ¬(ri = (r : Int) ∧ ci = (c : Int))) :
    getGrid (set2d g ri ci v) r c = getGrid g r c := by
  unfold set2d getGrid
  split
  · rename_i hpos
    by_cases hr : ri.toNat = r
    · have hri : ri = (r : Int) := by omega
      have hci : ¬ ci = (c : Int) := fun hc => h ⟨hri, hc⟩
      have hcn : ci.toNat ≠ c := by omega
      by_cases hin : ri.toNat < g.length
      · subst hr
        rw [getD_set_self _ _ _ _ hin, getD_set_ne _ _ _ _ _ hcn]
      · rw [set_oob _ _ _ (by omega)]
    · rw [getD_set_ne _ _ _ _ _ hr]
  · rfl

theorem getGrid_set2d_self (g : List (List String)) (ri ci : Int) (v : String)
    (r c : Nat) (hri : ri = (r : Int)) (hci : ci = (c : Int)) (hr : r < g.length)
    (hc : c < (g.getD r []).length) :
    getGrid (set2d g ri ci v) r c = v := by
  unfold set2d getGrid
  rw [if_pos ⟨by omega, by omega⟩]
  have h1 : ri.toNat = r := by omega
  have h2 : ci.toNat = c := by omega
  rw [h1, h2, getD_set_self _ _ _ _ hr, getD_set_self _ _ _ _ hc]

/-! ### Fill-loop characterization -/

theorem fillCells_length (cells : List SheetCell) (ri : Int) :
    ∀ g, (cells.foldl (fillCell ri) g).length = g.length := by
  induction cells with
  | nil => intro g; rfl
  | cons cell rest ih =>
    intro g
    simp only [List.foldl_cons]
    rw [ih]
    unfold fillCell
    cases cell.idx
    · rfl
    · exact set2d_length _ _ _ _

theorem fillCells_rowlen (cells : List SheetCell) (ri : Int) (r : Nat) :
    ∀ g, ((cells.foldl (fillCell ri) g).getD r []).length = (g.getD r []).length := by
  induction cells with
  | nil => intro g; rfl
  | cons cell rest ih =>
    intro g
    simp only [List.foldl_cons]
    rw [ih]
    unfold fillCell
    cases cell.idx
    · rfl
    · exact set2d_rowlen _ _ _ _ _

theorem fillCells_none (cells : List SheetCell) (ri : Int) (r c : Nat)
    (h : ∀ cell ∈ cells, ∀ ci, cell.idx = some ci → ¬(ri = (r : Int) ∧ ci = (c : Int))) :
    ∀ g, getGrid (cells.foldl (fillCell ri) g) r c = getGrid g r c := by
  induction cells with
  | nil => intro g; rfl
  | cons cell rest ih =>
    intro g
    simp only [List.foldl_cons]
    rw [ih (fun c2 hc => h c2 (by simp [hc]))]
    unfold fillCell
    cases hidx : cell.idx with
    | none => rfl
    | some ci => exact getGrid_set2d_other _ _ _ _ _ _ (h cell (by simp) ci hidx)

theorem fillCells_preserve (cells : List SheetCell) (ri : Int) (r c : Nat) (F : String)
    (hfun : ∀ cell ∈ cells, ∀ ci, cell.idx = some ci → ri = (r : Int) → ci = (c : Int) →
      resolveValue cell = F) :
    ∀ g, getGrid g r c = F → r < g.length → c < (g.getD r []).length →
      getGrid (cells.foldl (fillCell ri) g) r c = F := by
  induction cells with
  | nil => intro g hcur _ _; exact hcur
  | cons cell rest ih =>
    intro g hcur hr hc
    simp only [List.foldl_cons]
    have hfr : ∀ c2 ∈ rest, ∀ ci, c2.idx = some ci → ri = (r : Int) → ci = (c : Int) →
        resolveValue c2 = F := fun c2 hm => hfun c2 (by simp [hm])
    have hlen : r < (fillCell ri g cell).length := by
      unfold fillCell
      cases cell.idx
      · exact hr
      · rw [set2d_length]; exact hr
    have hrow : c < ((fillCell ri g cell).getD r []).length := by
      unfold fillCell
      cases cell.idx
      · exact hc
      · rw [set2d_rowlen]; exact hc
    refine ih hfr (fillCell ri g cell) ?_ hlen hrow
    unfold fillCell
    cases hidx : cell.idx with
    | none => exact hcur
    | some ci =>
      by_cases hat : ri = (r : Int) ∧ ci = (c : Int)
      · rw [getGrid_set2d_self _ _ _ _ _ _ hat.1 hat.2 hr hc]
        exact hfun cell (by simp) ci hidx hat.1 hat.2
      · rw [getGrid_set2d_other _ _ _ _ _ _ hat]
        exact hcur

theorem fillCells_write (cells : List SheetCell) (ri : Int) (r c : Nat) (F : String)
    (hfun : ∀ cell ∈ cells, ∀ ci, cell.idx = some ci → ri = (r : Int) → ci = (c : Int) →
      resolveValue cell = F)
    (hri : ri = (r : Int)) :
    ∀ g, (∃ cell ∈ cells, cell.idx = some (c : Int)) →
      r < g.length → c < (g.getD r []).length →
      getGrid (cells.foldl (fillCell ri) g) r c = F := by
  induction cells with
  | nil => intro g hex; simp at hex
  | cons cell rest ih =>
    intro g hex hr hc
    simp only [List.foldl_cons]
    have hfr : ∀ c2 ∈ rest, ∀ ci, c2.idx = some ci → ri = (r : Int) → ci = (c : Int) →
        resolveValue c2 = F := fun c2 hm => hfun c2 (by simp [hm])
    have hlen : r < (fillCell ri g cell).length := by
      unfold fillCell
      cases cell.idx
      · exact hr
      · rw [set2d_length]; exact hr
    have hrow : c < ((fillCell ri g cell).getD r []).length := by
      unfold fillCell
      cases cell.idx
      · exact hc
      · rw [set2d_rowlen]; exact hc
    by_cases hhead : cell.idx = some ((c : Nat) : Int)
    · apply fillCells_preserve rest ri r c F hfr (fillCell ri g cell) ?_ hlen hrow
      unfold fillCell
      rw [hhead]
      rw [getGrid_set2d_self _ _ _ _ _ _ hri rfl hr hc]
      exact hfun cell (by simp) _ hhead hri rfl
    · have hex2 : ∃ c2 ∈ rest, c2.idx = some ((c : Nat) : Int) := by
        obtain ⟨c2, hm, hidx⟩ := hex
        rcases List.mem_cons.mp hm with he | hm2
        · subst he; exact absurd hidx hhead
        · exact ⟨c2, hm2, hidx⟩
      refine Eq.trans ?_ (ih hfr (fillCell ri g cell) hex2 hlen hrow)
      rfl

theorem fillData_cons (row : SheetRow) (rows : List SheetRow) (g : List (List String)) :
    fillData g (row :: rows)
      = fillData (match row.index with
          | none => g
          | some ri => row.cells.foldl (fillCell ri) g) rows := rfl

theorem fillData_length (rows : List SheetRow) :
    ∀ g, (fillData g rows).length = g.length := by
  induction rows with
  | nil => intro g; rfl
  | cons row rest ih =>
    intro g
    rw [fillData_cons, ih]
    cases row.index with
    | none => rfl
    | some ri => exact fillCells_length _ _ _

theorem fillData_rowlen (rows : List SheetRow) (r : Nat) :
    ∀ g, ((fillData g rows).getD r []).length = (g.getD r []).length := by
  induction rows with
  | nil => intro g; rfl
  | cons row rest ih =>
    intro g
    rw [fillData_cons, ih]
    cases row.index with
    | none => rfl
    | some ri => exact fillCells_rowlen _ _ _ _

theorem fillData_none (rows : List SheetRow) (r c : Nat)
    (h : ∀ row ∈ rows, ∀ ri, row.index = some ri → ∀ cell ∈ row.cells, ∀ ci,
      cell.idx = some ci → ¬(ri = (r : Int) ∧ ci = (c : Int))) :
    ∀ g, getGrid (fillData g rows) r c = getGrid g r c := by
  induction rows with
  | nil => intro g; rfl
  | cons row rest ih =>
    intro g
    rw [fillData_cons]
    rw [ih (fun r2 hm => h r2 (by simp [hm]))]
    cases hidx : row.index with
    | none => rfl
    | some ri =>
      exact fillCells_none _ _ _ _ (fun cell hc ci hci =>
        h row (by simp) ri hidx cell hc ci hci) g

theorem fillData_preserve (rows : List SheetRow) (r c : Nat) (F : String)
    (hfun : ∀ row ∈ rows, ∀ ri, row.index = some ri → ∀ cell ∈ row.cells, ∀ ci,
      cell.idx = some ci → ri = (r : Int) → ci = (c : Int) → resolveValue cell = F) :
    ∀ g, getGrid g r c = F → r < g.length → c < (g.getD r []).length →
      getGrid (fillData g rows) r c = F := by
  induction rows with
  | nil => intro g hcur _ _; exact hcur
  | cons row rest ih =>
    intro g hcur hr hc
    rw [fillData_cons]
    have hfr : ∀ r2 ∈ rest, ∀ ri, r2.index = some ri → ∀ cell ∈ r2.cells, ∀ ci,
        cell.idx = some ci → ri = (r : Int) → ci = (c : Int) → resolveValue cell = F :=
      fun r2 hm => hfun r2 (by simp [hm])
    cases hidx : row.index with
    | none => exact ih hfr g hcur hr hc
    | some ri =>
      refine ih hfr _ ?_ ?_ ?_
      · exact fillCells_preserve row.cells ri r c F
          (fun cell hm ci => hfun row (by simp) ri hidx cell hm ci) g hcur hr hc
      · rw [fillCells_length]; exact hr
      · rw [fillCells_rowlen]; exact hc

theorem fillData_write (rows : List SheetRow) (r c : Nat) (F : String)
    (hfun : ∀ row ∈ rows, ∀ ri, row.index = some ri → ∀ cell ∈ row.cells, ∀ ci,
      cell.idx = some ci → ri = (r : Int) → ci = (c : Int) → resolveValue cell = F) :
    ∀ g, (∃ row ∈ rows, row.index = some (r : Int) ∧
        ∃ cell ∈ row.cells, cell.idx = some (c : Int)) →
      r < g.length → c < (g.getD r []).length →
      getGrid (fillData g rows) r c = F := by
  induction rows with
  | nil => intro g hex; simp at hex
  | cons row rest ih =>
    intro g hex hr hc
    rw [fillData_cons]
    have hfr : ∀ r2 ∈ rest, ∀ ri, r2.index = some ri → ∀ cell ∈ r2.cells, ∀ ci,
        cell.idx = some ci → ri = (r : Int) → ci = (c : Int) → resolveValue cell = F :=
      fun r2 hm => hfun r2 (by simp [hm])
    by_cases hhead : row.index = some ((r : Nat) : Int) ∧
        ∃ cell ∈ row.cells, cell.idx = some ((c : Nat) : Int)
    · rw [hhead.1]
      refine fillData_preserve rest r c F hfr _ ?_ ?_ ?_
      · exact fillCells_write row.cells _ r c F
          (fun cell hm ci => hfun row (by simp) _ hhead.1 cell hm ci) rfl g hhead.2 hr hc
      · rw [fillCells_length]; exact hr
      · rw [fillCells_rowlen]; exact hc
    · have hex2 : ∃ r2 ∈ rest, r2.index = some ((r : Nat) : Int) ∧
          ∃ cell ∈ r2.cells, cell.idx = some ((c : Nat) : Int) := by
        obtain ⟨r2, hm, hi, hcell⟩ := hex
        rcases List.mem_cons.mp hm with he | hm2
        · subst he; exact absurd ⟨hi, hcell⟩ hhead
        · exact ⟨r2, hm2, hi, hcell⟩
      cases hidx : row.index with
      | none => exact ih hfr g hex2 hr hc
      | some ri =>
        refine ih hfr _ hex2 ?_ ?_
        · rw [fillCells_length]; exact hr
        · rw [fillCells_rowlen]; exact hc

/-! ### Export characterization -/

theorem exportCell_some (st : EngineState) (r c : Nat) (cell : SheetCell)
    (h : exportCell st r c = some cell) :
    cell.idx = some (c : Int) ∧
    cell.value = (if getData st.model r c ≠ ""
      then some (JsVal.str (getData st.model r c)) else none) ∧
    cell.text = none ∧ cell.displayText = none ∧ cell.v = none := by
  unfold exportCell at h
  dsimp only at h
  split at h
  · have he := Option.some.inj h
    subst he
    exact ⟨rfl, rfl, rfl, rfl, rfl⟩
  · exact absurd h (by simp)

theorem exportCell_resolveValue (st : EngineState) (r c : Nat) (cell : SheetCell)
    (h : exportCell st r c = some cell) :
    resolveValue cell = getData st.model r c := by
  obtain ⟨_, hval, htext, hdt, hv⟩ := exportCell_some st r c cell h
  unfold resolveValue
  by_cases hcontent : getData st.model r c ≠ ""
  · rw [if_pos hcontent] at hval
    rw [hval]
    rfl
  · rw [if_neg hcontent] at hval
    rw [hval, htext, hdt, hv]
    push_neg at hcontent
    exact hcontent.symm

theorem exportCell_of_content (st : EngineState) (r c : Nat)
    (hne : getData st.model r c ≠ "") :
    ∃ cell, exportCell st r c = some cell ∧ cell.idx = some (c : Int) := by
  unfold exportCell
  dsimp only
  rw [if_pos (Or.inl hne)]
  exact ⟨_, rfl, rfl⟩

theorem exportRow_some (st : EngineState) (r : Nat) (row : SheetRow)
    (h : exportRow st r = some row) :
    row.index = some (r : Int) ∧
    row.cells = (List.range (colsNat st.model)).filterMap (exportCell st r) := by
  unfold exportRow at h
  dsimp only at h
  split at h
  · have he := Option.some.inj h
    subst he
    exact ⟨rfl, rfl⟩
  · exact absurd h (by simp)

theorem exportRow_of_cells (st : EngineState) (r : Nat)
    (hne : (List.range (colsNat st.model)).filterMap (exportCell st r) ≠ []) :
    ∃ row, exportRow st r = some row ∧ row.index = some (r : Int) ∧
      row.cells = (List.range (colsNat st.model)).filterMap (exportCell st r) := by
  unfold exportRow
  dsimp only
  rw [if_pos (Or.inl hne)]
  exact ⟨_, rfl, rfl, rfl⟩

theorem exportRows_mem (st : EngineState) (row : SheetRow)
    (h : row ∈ (exportSheet st).rows) :
    ∃ r, r < rowsNat st.model ∧ exportRow st r = some row := by
  obtain ⟨r, hr, hsome⟩ := List.mem_filterMap.mp h
  exact ⟨r, List.mem_range.mp hr, hsome⟩

/-- Selection well-formedness: a stored selection points inside the grid. -/
def SelWf (st : EngineState) : Prop :=
  match st.selection with
  | none => True
  | some (.cell r c) => r < rowsNat st.model ∧ c < colsNat st.model
  | some (.col c) => c < colsNat st.model
  | some (.row r) => r < rowsNat st.model

instance (st : EngineState) : Decidable (SelWf st) :=
  match h : st.selection with
  | none => .isTrue (by unfold SelWf; rw [h]; exact trivial)
  | some (.cell r c) => decidable_of_iff (r < rowsNat st.model ∧ c < colsNat st.model)
      (by unfold SelWf; rw [h])
  | some (.col c) => decidable_of_iff (c < colsNat st.model) (by unfold SelWf; rw [h])
  | some (.row r) => decidable_of_iff (r < rowsNat st.model) (by unfold SelWf; rw [h])

theorem selCoords_le (st : EngineState) (hsel : SelWf st)
    (hr : 1 ≤ rowsNat st.model) (hc : 1 ≤ colsNat st.model) :
    ((selCoords st.selection).1.toNat : Int) ≤ (rowsNat st.model : Int) - 1 ∧
    ((selCoords st.selection).2.toNat : Int) ≤ (colsNat st.model : Int) - 1 := by
  unfold SelWf at hsel
  match h : st.selection with
  | none =>
    unfold selCoords
    constructor <;> simp <;> omega
  | some (.cell r c) =>
    rw [h] at hsel
    have hsel2 : r < rowsNat st.model ∧ c < colsNat st.model := hsel
    unfold selCoords
    dsimp only
    constructor <;> simp <;> omega
  | some (.col c) =>
    rw [h] at hsel
    have hsel2 : c < colsNat st.model := hsel
    unfold selCoords
    dsimp only
    constructor <;> simp <;> omega
  | some (.row r) =>
    rw [h] at hsel
    have hsel2 : r < rowsNat st.model := hsel
    unfold selCoords
    dsimp only
    constructor <;> simp <;> omega

theorem activeCellLabel_ne_nil (sel : Option Sel) : activeCellLabel sel ≠ [] := by
  rw [activeCellLabel_form]
  intro h
  exact colIndexToLabel_ne_nil _ (List.append_eq_nil.mp h).1

theorem pickSheet_export (st : EngineState) :
    pickSheet (toSpreadsheetJSON st) = some (exportSheet st) := by
  rfl

/-! ### Round-trip: dimension inference on an exported sheet -/

theorem importDims_export_eq (st : EngineState) :
    ∃ a b : Int,
      importDims (exportSheet st)
        = (st.model.mergedCells.map
            (fun mr => rangeToA1 (mr.sr, mr.sc) (mr.er, mr.ec))).foldl
            mergeScan ((a, b), []) ∧
      (dimsFromRows (exportSheet st).rows (-1, -1)).1 ≤ a ∧
      ((selCoords st.selection).1.toNat : Int) ≤ a ∧
      ((colsNat st.model : Int) - 1) ≤ b ∧
      ∀ R C : Int,
        (dimsFromRows (exportSheet st).rows (-1, -1)).1 ≤ R →
        (dimsFromRows (exportSheet st).rows (-1, -1)).2 ≤ C →
        ((selCoords st.selection).1.toNat : Int) ≤ R →
        ((selCoords st.selection).2.toNat : Int) ≤ C →
        ((colsNat st.model : Int) - 1) ≤ C →
        a ≤ R ∧ b ≤ C := by
  have hne := activeCellLabel_ne_nil st.selection
  unfold importDims
  dsimp only [exportSheet]
  rw [if_pos hne, if_pos hne]
  unfold bumpA1 bumpRange
  rw [parseA1_activeCellLabel, parseA1Range_activeCellLabel]
  dsimp only
  simp only [List.length_map, List.length_range]
  refine ⟨_, _, rfl, ?_, ?_, ?_, ?_⟩
  · omega
  · omega
  · omega
  · intro R C h1 h2 h3 h4 h5
    omega

theorem importDims_export_spec (st : EngineState)
    (hrows : 2 ≤ st.model.rows) (hcols : 2 ≤ st.model.cols)
    (hmerge : ∀ mr ∈ st.model.mergedCells,
      MergeWf (rowsNat st.model) (colsNat st.model) mr)
    (hsel : SelWf st) :
    (importDims (exportSheet st)).1.1 ≤ (rowsNat st.model : Int) - 1 ∧
    (importDims (exportSheet st)).1.2 = (colsNat st.model : Int) - 1 ∧
    (importDims (exportSheet st)).2
      = st.model.mergedCells.map (fun mr =>
          (⟨(mr.sr : Int), (mr.sc : Int), (mr.er : Int), (mr.ec : Int)⟩ : RawA1Range)) ∧
    (∀ row ∈ (exportSheet st).rows, ∀ ri, row.index = some ri →
      ri ≤ (importDims (exportSheet st)).1.1) ∧
    (∀ mr ∈ st.model.mergedCells,
      (mr.er : Int) ≤ (importDims (exportSheet st)).1.1 ∧
      (mr.ec : Int) ≤ (importDims (exportSheet st)).1.2) := by
  have hR1 : 1 ≤ rowsNat st.model := by unfold rowsNat; omega
  have hC1 : 1 ≤ colsNat st.model := by unfold colsNat; omega
  have hscl := selCoords_le st hsel hR1 hC1
  have hwf2 : ∀ mr ∈ st.model.mergedCells, mr.sr ≤ mr.er ∧ mr.sc ≤ mr.ec :=
    fun mr hm => ⟨(hmerge mr hm).1, (hmerge mr hm).2.1⟩
  have hrowbd : ∀ row ∈ (exportSheet st).rows, ∀ ri, row.index = some ri →
      ri ≤ (rowsNat st.model : Int) - 1 := by
    intro row hm ri hri
    obtain ⟨r0, hr0, hrow0⟩ := exportRows_mem st row hm
    obtain ⟨hidx0, _⟩ := exportRow_some st r0 row hrow0
    rw [hidx0] at hri
    have hri2 := Option.some.inj hri
    omega
  have hcellbd : ∀ row ∈ (exportSheet st).rows, ∀ cell ∈ row.cells, ∀ ci,
      cell.idx = some ci → ci ≤ (colsNat st.model : Int) - 1 := by
    intro row hm cell hc ci hci
    obtain ⟨r0, hr0, hrow0⟩ := exportRows_mem st row hm
    obtain ⟨_, hcells0⟩ := exportRow_some st r0 row hrow0
    rw [hcells0] at hc
    obtain ⟨c0, hc0, hcell0⟩ := List.mem_filterMap.mp hc
    have hprops := exportCell_some st r0 c0 cell hcell0
    rw [hprops.1] at hci
    have hci2 := Option.some.inj hci
    have hc0lt : c0 < colsNat st.model := List.mem_range.mp hc0
    omega
  have hdfr := dimsFromRows_le (exportSheet st).rows ((rowsNat st.model : Int) - 1)
    ((colsNat st.model : Int) - 1) (-1, -1) hrowbd hcellbd
    (show ((-1 : Int)) ≤ (rowsNat st.model : Int) - 1 by omega)
    (show ((-1 : Int)) ≤ (colsNat st.model : Int) - 1 by omega)
  have hmlbd : ∀ mr ∈ st.model.mergedCells,
      (mr.er : Int) ≤ (rowsNat st.model : Int) - 1 ∧
      (mr.ec : Int) ≤ (colsNat st.model : Int) - 1 := by
    intro mr hm
    have hw := hmerge mr hm
    unfold MergeWf at hw
    omega
  obtain ⟨a, b, hEq, hm1, hm2, hm3, hbound⟩ := importDims_export_eq st
  have hab := hbound ((rowsNat st.model : Int) - 1) ((colsNat st.model : Int) - 1)
    hdfr.1 hdfr.2 hscl.1 hscl.2 (le_refl _)
  rw [hEq]
  refine ⟨?_, ?_, ?_, ?_, ?_⟩
  · exact (mergeScan_fold_le st.model.mergedCells hwf2 _ _ (a, b) []
      hab.1 hab.2 hmlbd).1
  · exact le_antisymm
      (mergeScan_fold_le st.model.mergedCells hwf2 _ _ (a, b) []
        hab.1 hab.2 hmlbd).2
      (le_trans hm3 (mergeScan_fold_ge st.model.mergedCells hwf2 (a, b) []).2)
  · exact mergeScan_fold_parsed st.model.mergedCells hwf2 (a, b) []
  · intro row hm ri hri
    have h1 := dimsFromRows_row_le (exportSheet st).rows (-1, -1) row hm ri hri
    exact le_trans h1 (le_trans hm1
      (mergeScan_fold_ge st.model.mergedCells hwf2 (a, b) []).1)
  · intro mr hm
    exact mergeScan_fold_mr_le st.model.mergedCells hwf2 (a, b) [] mr hm

/-! ### Round-trip: the imported model componentwise -/

theorem fromJSON_export_model (st : EngineState) :
    (fromJSON st (toSpreadsheetJSON st)).model.rows
        = (((max 2 ((importDims (exportSheet st)).1.1 + 1)).toNat : Nat) : Int) ∧
    (fromJSON st (toSpreadsheetJSON st)).model.cols
        = (((max 2 ((importDims (exportSheet st)).1.2 + 1)).toNat : Nat) : Int) ∧
    (fromJSON st (toSpreadsheetJSON st)).model.data
        = fillData (List.replicate (max 2 ((importDims (exportSheet st)).1.1 + 1)).toNat
            (List.replicate (max 2 ((importDims (exportSheet st)).1.2 + 1)).toNat ""))
            (exportSheet st).rows ∧
    (fromJSON st (toSpreadsheetJSON st)).model.mergedCells
        = sanitizeMerges ((importDims (exportSheet st)).2.map
            (fun pr => RawMerge.rng pr.sr pr.sc pr.er pr.ec))
            (max 2 ((importDims (exportSheet st)).1.1 + 1)).toNat
            (max 2 ((importDims (exportSheet st)).1.2 + 1)).toNat :=
  ⟨rfl, rfl, rfl, rfl⟩

/-- C1 (corrected): round-trip import(export(state)) on a well-formed state
(at least 2 rows and columns, in-bounds non-degenerate merges, in-bounds
selection) preserves the column count exactly, never grows the row count
(trailing all-empty rows may be trimmed, never below 2), reads back every
in-bounds cell's text unchanged, and preserves the merge list exactly. The
original claim's style half is false: per-cell style properties pass through
the spreadsheet interchange mapping, which is lossy, so a property whose
value differs from the default style can still disappear (see the
counterexample). -/
theorem roundtrip_preserves_text_and_merges (st : EngineState)
    (hrows : 2 ≤ st.model.rows) (hcols : 2 ≤ st.model.cols)
    (hmerge : ∀ mr ∈ st.model.mergedCells,
      MergeWf (rowsNat st.model) (colsNat st.model) mr)
    (hsel : SelWf st) :
    (fromJSON st (toSpreadsheetJSON st)).model.cols = st.model.cols ∧
    2 ≤ (fromJSON st (toSpreadsheetJSON st)).model.rows ∧
    (fromJSON st (toSpreadsheetJSON st)).model.rows ≤ st.model.rows ∧
    (∀ r c : Nat, r < rowsNat st.model → c < colsNat st.model →
      getData (fromJSON st (toSpreadsheetJSON st)).model r c = getData st.model r c) ∧
    (fromJSON st (toSpreadsheetJSON st)).model.mergedCells = st.model.mergedCells := by
  obtain ⟨hmr, hmc2, hmdata, hmmerge⟩ := fromJSON_export_model st
  obtain ⟨hd1, hd2, hd3, hd4, hd5⟩ := importDims_export_spec st hrows hcols hmerge hsel
  have hrowsNat : (rowsNat st.model : Int) = st.model.rows := by unfold rowsNat; omega
  have hcolsNat : (colsNat st.model : Int) = st.model.cols := by unfold colsNat; omega
  refine ⟨?_, ?_, ?_, ?_, ?_⟩
  · rw [hmc2]
    omega
  · rw [hmr]
    omega
  · rw [hmr]
    omega
  · intro r c hr hc
    rw [getData_eq_getGrid, hmdata]
    have hfun : ∀ row ∈ (exportSheet st).rows, ∀ ri, row.index = some ri →
        ∀ cell ∈ row.cells, ∀ ci, cell.idx = some ci → ri = (r : Int) → ci = (c : Int) →
        resolveValue cell = getData st.model r c := by
      intro row hm ri hri cell hcm ci hci hrieq hcieq
      obtain ⟨r0, hr0, hrow0⟩ := exportRows_mem st row hm
      obtain ⟨hidx0, hcells0⟩ := exportRow_some st r0 row hrow0
      rw [hidx0] at hri
      have hri2 := Option.some.inj hri
      have hr0r : r0 = r := by omega
      rw [hcells0] at hcm
      obtain ⟨c0, hc0, hcell0⟩ := List.mem_filterMap.mp hcm
      have hprops := exportCell_some st r0 c0 cell hcell0
      rw [hprops.1] at hci
      have hci2 := Option.some.inj hci
      have hc0c : c0 = c := by omega
      rw [hr0r, hc0c] at hcell0
      exact exportCell_resolveValue st r c cell hcell0
    by_cases hval : getData st.model r c = ""
    · rw [hval]
      by_cases hrlt : r < (max 2 ((importDims (exportSheet st)).1.1 + 1)).toNat
      · have hfun0 : ∀ row ∈ (exportSheet st).rows, ∀ ri, row.index = some ri →
            ∀ cell ∈ row.cells, ∀ ci, cell.idx = some ci → ri = (r : Int) →
            ci = (c : Int) → resolveValue cell = "" := by
          intro row hm ri hri cell hcm ci hci hrieq hcieq
          rw [← hval]
          exact hfun row hm ri hri cell hcm ci hci hrieq hcieq
        refine fillData_preserve (exportSheet st).rows r c "" hfun0 _ ?_ ?_ ?_
        · unfold getGrid
          rw [getD_replicate, if_pos hrlt, getD_replicate]
          split <;> rfl
        · rw [List.length_replicate]
          exact hrlt
        · rw [getD_replicate, if_pos hrlt, List.length_replicate]
          omega
      · have hnone : ∀ row ∈ (exportSheet st).rows, ∀ ri, row.index = some ri →
            ∀ cell ∈ row.cells, ∀ ci, cell.idx = some ci →
            ¬(ri = (r : Int) ∧ ci = (c : Int)) := by
          intro row hm ri hri cell hcm ci hci hcontra
          have hriD := hd4 row hm ri hri
          omega
        rw [fillData_none (exportSheet st).rows r c hnone _]
        unfold getGrid
        rw [getD_replicate, if_neg hrlt]
        rfl
    · obtain ⟨cell, hcell, hcidx⟩ := exportCell_of_content st r c hval
      have hcellmem : cell ∈ (List.range (colsNat st.model)).filterMap (exportCell st r) :=
        List.mem_filterMap.mpr ⟨c, List.mem_range.mpr hc, hcell⟩
      have hcellsne : (List.range (colsNat st.model)).filterMap (exportCell st r) ≠ [] := by
        intro hnil
        rw [hnil] at hcellmem
        exact absurd hcellmem (List.not_mem_nil _)
      obtain ⟨row, hrowsome, hrindex, hrcells⟩ := exportRow_of_cells st r hcellsne
      have hrowmem : row ∈ (exportSheet st).rows := by
        show row ∈ (List.range (rowsNat st.model)).filterMap (exportRow st)
        exact List.mem_filterMap.mpr ⟨r, List.mem_range.mpr hr, hrowsome⟩
      have hrD : (r : Int) ≤ (importDims (exportSheet st)).1.1 :=
        hd4 row hrowmem _ hrindex
      have hrlt : r < (max 2 ((importDims (exportSheet st)).1.1 + 1)).toNat := by omega
      refine fillData_write (exportSheet st).rows r c (getData st.model r c) hfun _
        ⟨row, hrowmem, hrindex, cell, ?_, hcidx⟩ ?_ ?_
      · rw [hrcells]
        exact hcellmem
      · rw [List.length_replicate]
        exact hrlt
      · rw [getD_replicate, if_pos hrlt, List.length_replicate]
        omega
  · rw [hmmerge, hd3, List.map_map]
    refine sanitizeMerges_exact st.model.mergedCells _ _ ?_
    intro mr hm
    have hw := hmerge mr hm
    unfold MergeWf at hw
    have h5 := hd5 mr hm
    refine ⟨hw.1, hw.2.1, ?_, ?_, hw.2.2.2.2⟩
    · omega
    · omega

theorem roundtrip_preserves_text_and_merges_witness :
    (fromJSON sampleState (toSpreadsheetJSON sampleState)).model.cols
        = sampleState.model.cols ∧
    2 ≤ (fromJSON sampleState (toSpreadsheetJSON sampleState)).model.rows ∧
    (fromJSON sampleState (toSpreadsheetJSON sampleState)).model.rows
        ≤ sampleState.model.rows ∧
    getData (fromJSON sampleState (toSpreadsheetJSON sampleState)).model 0 0
        = getData sampleState.model 0 0 ∧
    (fromJSON sampleState (toSpreadsheetJSON sampleState)).model.mergedCells
        = sampleState.model.mergedCells := by
  obtain ⟨h1, h2, h3, h4, h5⟩ := roundtrip_preserves_text_and_merges sampleState
    (by decide) (by decide) (by decide) (by decide)
  exact ⟨h1, h2, h3, h4 0 0 (by decide) (by decide), h5⟩

/-- C1 counterexample: the per-cell override fontWeight 400 on the sample
state differs from the default style (which is null), yet the round trip
loses it, because the export maps fontWeight to the interchange bold flag
only when the weight is bold or at least 600. -/
theorem roundtrip_drops_nondefault_style :
    getCellStyle sampleState.model 0 0 = some [("fontWeight", "400")] ∧
    sampleState.defaultCellStyle = none ∧
    getCellStyle (fromJSON sampleState (toSpreadsheetJSON sampleState)).model 0 0
      = none := by
  refine ⟨by decide, rfl, by decide⟩

end CustomTable
